import Mathlib

/-!
Verification development for the MindStream data pipeline.

This file shallowly embeds the two core components of the repository:

* `src/ingestor/data_cloud_bulk_ingest.py` — the `DataCloudBulkIngest`
  class: the per-file job lifecycle (`create_bulk_ingest_job`,
  `upload_data_to_job`, `close_job`, `monitor_job`, `process_csv_file`)
  and the coordinator (`execute_bulk_ingest`).
* `src/mindstream_project/converter/json_to_csv_converter.py` — the
  `JSONToCSVConverter` class: the HTML sanitizer (`clean_html`) and the
  size-bounded CSV batch writer (`convert`).

HTTP traffic, the filesystem and the clock are modelled as explicit
environments (lists of responses, strings); Python exceptions are
modelled with `Except`.  Machine behaviour that the Python code gets
from libraries (`re.sub`, `csv.DictWriter`, BeautifulSoup's
`html.parser` tree builder and minimal output formatter) is embedded
as executable Lean functions over `List Char` / `String`.
-/

set_option maxRecDepth 100000

namespace MindStream

/-! ## Ingestor: `DataCloudBulkIngest`

The remote service is modelled by the responses it returns.  A response
carries the HTTP status code and the fields of the parsed JSON body the
code actually reads: `id` for job creation, `state` for polling.
`None` results of `dict.get` are `Option.none`.
-/

/-- An HTTP response as seen by `create_bulk_ingest_job`: status code and
the optional `id` field of the JSON body. -/
structure CreateResp where
  status : Nat
  id : Option String
deriving Repr, DecidableEq

/-- An HTTP response as seen by `monitor_job`: status code and the optional
`state` field of the JSON body. -/
structure PollResp where
  status : Nat
  state : Option String
deriving Repr, DecidableEq

/-- Python truthiness of the `job_id` value (`if not job_id`): `None` and
the empty string are falsy. -/
def truthyId : Option String → Bool
  | none => false
  | some s => s ≠ ""

/-- `create_bulk_ingest_job`: returns the `id` field of the response body on
status 200/201, and `None` otherwise. -/
def create_bulk_ingest_job (r : CreateResp) : Option String :=
  if r.status = 200 ∨ r.status = 201 then r.id else none

/-- `upload_data_to_job`'s success test: status 200/201. The file read that
precedes the PUT is modelled separately (it can raise). -/
def uploadOk (status : Nat) : Bool :=
  status = 200 ∨ status = 201

/-- `close_job`: succeeds exactly on status 200. -/
def close_job (status : Nat) : Bool :=
  status = 200

/-- The remote job states the polling loop treats as terminal. -/
def terminalStates : List String := ["JobComplete", "Failed", "Aborted"]

/-- `state in ['JobComplete', 'Failed', 'Aborted']` where `state` may be
`None` (`job_info.get('state')`). -/
def isTerminal : Option String → Bool
  | none => false
  | some s => s ∈ terminalStates

/-- Observable actions of one file's processing, in the order the Python
code performs them. `getStatus` is one GET of the polling loop, `sleep10`
is the fixed `time.sleep(10)` between polls. -/
inductive Action where
  | createJob
  | uploadData
  | closeJob
  | getStatus
  | sleep10
deriving Repr, DecidableEq

/-- `monitor_job`: the `while True` loop, reading one `PollResp` per
iteration from the environment. On a 200 response with terminal state it
breaks; on a 200 response with any other state it sleeps 10 and loops; on
any non-200 status it breaks. An exhausted environment ends the trace. -/
def monitor_job : List PollResp → List Action
  | [] => []
  | r :: rest =>
    if r.status = 200 then
      if isTerminal r.state then [Action.getStatus]
      else Action.getStatus :: Action.sleep10 :: monitor_job rest
    else [Action.getStatus]

/-- The environment one `process_csv_file` call runs against: the create
response, the result of reading the CSV file from disk (`open(...).read()`
can raise), the upload and close statuses, and the stream of poll
responses. -/
structure FileEnv where
  createResp : CreateResp
  fileRead : Except String String
  uploadStatus : Nat
  closeStatus : Nat
  polls : List PollResp

/-- `process_csv_file`: create → (if job id truthy) upload → (if upload ok)
close → (if close ok) poll. Returns the trace of actions performed, or the
uncaught Python exception (from the file read inside the upload step). -/
def process_csv_file (env : FileEnv) : Except String (List Action) := do
  let jobId := create_bulk_ingest_job env.createResp
  if ¬ truthyId jobId then
    return [Action.createJob]
  let _ ← env.fileRead
  if ¬ uploadOk env.uploadStatus then
    return [Action.createJob, Action.uploadData]
  if ¬ close_job env.closeStatus then
    return [Action.createJob, Action.uploadData, Action.closeJob]
  return [Action.createJob, Action.uploadData, Action.closeJob] ++ monitor_job env.polls

/-- One submitted task of `execute_bulk_ingest`: the CSV file path and the
environment its worker runs against. -/
structure FileTask where
  path : String
  env : FileEnv

/-- The per-file outcome the coordinator observes via `future.result()`:
either the worker completed (with its trace), or its exception was caught
and logged together with the file path. -/
inductive WorkerOutcome where
  | completed (actions : List Action)
  | caught (path : String) (exc : String)
deriving Repr, DecidableEq

/-- The worker boundary: run one file's processing and catch any exception,
logging it with that file's path (`except Exception as e: print(...)`). -/
def runWorker (t : FileTask) : WorkerOutcome :=
  match process_csv_file t.env with
  | Except.ok acts => WorkerOutcome.completed acts
  | Except.error e => WorkerOutcome.caught t.path e

/-- `execute_bulk_ingest`: every file is submitted to the pool and each
worker's exception is caught at the `future.result()` boundary; the caller
receives no exception. Worker scheduling is modelled deterministically in
submission order (each outcome depends only on its own task). -/
def execute_bulk_ingest (ts : List FileTask) : List WorkerOutcome :=
  ts.map runWorker

/-- A concrete environment where create and upload succeed but the close
PATCH returns 500. -/
def envCloseFails : FileEnv :=
  { createResp := { status := 200, id := some "job-1" }
    fileRead := Except.ok "content,id\r\n"
    uploadStatus := 200
    closeStatus := 500
    polls := [{ status := 200, state := some "InProgress" },
              { status := 200, state := some "JobComplete" }] }

/-- A concrete environment where every step succeeds and the first poll is
already terminal. -/
def envAllOk : FileEnv :=
  { createResp := { status := 201, id := some "job-2" }
    fileRead := Except.ok "content,id\r\n"
    uploadStatus := 201
    closeStatus := 200
    polls := [{ status := 200, state := some "JobComplete" }] }

/-- A concrete environment where the create POST returns 400. -/
def envCreateFails : FileEnv :=
  { createResp := { status := 400, id := none }
    fileRead := Except.ok ""
    uploadStatus := 200
    closeStatus := 200
    polls := [{ status := 200, state := some "JobComplete" }] }

/-- A concrete environment where the upload PUT returns 500. -/
def envUploadFails : FileEnv :=
  { createResp := { status := 200, id := some "job-3" }
    fileRead := Except.ok ""
    uploadStatus := 500
    closeStatus := 200
    polls := [{ status := 200, state := some "JobComplete" }] }

/-- A concrete environment where reading the CSV file raises. -/
def envReadRaises : FileEnv :=
  { createResp := { status := 200, id := some "job-4" }
    fileRead := Except.error "FileNotFoundError"
    uploadStatus := 200
    closeStatus := 200
    polls := [{ status := 200, state := some "JobComplete" }] }

/-! ## String utilities shared by the converter

Python's `re` module with a `str` pattern and `str.strip()` treat Unicode
whitespace as whitespace; the characters that can arise here are modelled
by the ASCII whitespace characters plus NBSP. -/

/-- Whitespace for Python's `\s` and `str.strip()` (ASCII + NBSP). -/
def isPyWs (c : Char) : Bool :=
  c = ' ' || c = '\t' || c = '\n' || c = '\r' || c = '\x0b' || c = '\x0c' || c = '\xa0'

/-- `str.strip()` on a character list. -/
def pyStripChars (cs : List Char) : List Char :=
  ((cs.dropWhile isPyWs).reverse.dropWhile isPyWs).reverse

/-- `str.strip()`. -/
def pyStrip (s : String) : String :=
  ⟨pyStripChars s.data⟩

/-- `re.sub(r'\s+', ' ', ·)`: replace every maximal whitespace run by a
single space. The flag records whether the previous character was
whitespace. -/
def squeezeWs : Bool → List Char → List Char
  | _, [] => []
  | prevWs, c :: rest =>
    if isPyWs c then
      if prevWs then squeezeWs true rest
      else ' ' :: squeezeWs true rest
    else c :: squeezeWs false rest

/-- `re.sub(r'\s+', ' ', cs).strip()` — line 76 of `clean_html`. -/
def collapseWsChars (cs : List Char) : List Char :=
  pyStripChars (squeezeWs false cs)

/-- String version of `collapseWsChars`. -/
def collapseWs (s : String) : String :=
  ⟨collapseWsChars s.data⟩

/-! ## HTML sanitizer: `JSONToCSVConverter.clean_html`

The BeautifulSoup parse tree, the recursive `process_node` walk, the
empty-tag removal loop, bs4's `str(tag)` serialization with the minimal
output formatter (which escapes `&`, `<`, `>` in strings), the
`re.sub(r'<(script|style)[^>]*>.*?</\1>', '', ·)` pre-pass, and a model
of the `html.parser` tree builder. -/

/-- A node of the BeautifulSoup tree: a `NavigableString`, a `Tag` with
its children (attributes are dropped — nothing in `clean_html` reads
them), or a comment/declaration node. -/
inductive HNode where
  | text (s : List Char)
  | tag (name : List Char) (children : List HNode)
  | comment (s : List Char)

/-- The sanitizer's allow-list of tag names. -/
def allowedTags : List (List Char) :=
  ["h1", "h2", "h3", "h4", "h5", "h6", "p",
   "ul", "ol", "li", "blockquote", "pre", "code"].map String.data

mutual

/-- `process_node` on one node: the list of nodes it contributes to its
parent. `Comment` and `Doctype` are subclasses of `NavigableString` in
bs4, so the `isinstance(node, NavigableString)` branch fires for them
first and they are copied into the new tree as plain text (the code's
"ignore other types" comment notwithstanding): the `comment` case
produces `text`. Allowed tags are rebuilt without attributes; a
disallowed tag is elided and its children processed under the current
parent. -/
def processNode : HNode → List HNode
  | HNode.text s => [HNode.text s]
  | HNode.comment s => [HNode.text s]
  | HNode.tag n cs =>
    if n ∈ allowedTags then [HNode.tag n (processNodes cs)]
    else processNodes cs

/-- `process_node` applied to a list of siblings appended to one parent. -/
def processNodes : List HNode → List HNode
  | [] => []
  | n :: rest => processNode n ++ processNodes rest

end

mutual

/-- Whether this node contributes a non-whitespace character to
`get_text(strip=True)`. (The HTML builder's `get_text` skips comment
nodes; processed trees contain none anyway.) -/
def hasContentNode : HNode → Bool
  | HNode.text s => s.any (fun c => !(isPyWs c))
  | HNode.comment _ => false
  | HNode.tag _ cs => hasContentNodes cs

/-- `tag.get_text(strip=True)` of a children list is non-empty: some
descendant string has a non-whitespace character. -/
def hasContentNodes : List HNode → Bool
  | [] => false
  | n :: rest => hasContentNode n || hasContentNodes rest

end

mutual

/-- The empty-tag removal loop (lines 68–70) on one node: every tag whose
stripped text is empty is decomposed together with its subtree.
`find_all` yields tags in document order, so an ancestor is examined
before its descendants; decomposing a tag that an earlier decompose
already removed is a no-op, so the loop is equivalent to this recursive
prune. -/
def pruneNode : HNode → List HNode
  | HNode.text s => [HNode.text s]
  | HNode.comment s => [HNode.comment s]
  | HNode.tag n cs =>
    if hasContentNodes cs then [HNode.tag n (pruneNodes cs)] else []

/-- The empty-tag removal loop on a list of siblings. -/
def pruneNodes : List HNode → List HNode
  | [] => []
  | n :: rest => pruneNode n ++ pruneNodes rest

end

/-- bs4's minimal output formatter on one character of a string node. -/
def escChar (c : Char) : List Char :=
  if c = '&' then "&amp;".data
  else if c = '<' then "&lt;".data
  else if c = '>' then "&gt;".data
  else [c]

/-- bs4's minimal output formatter on a string node. -/
def escapeHtml (cs : List Char) : List Char := cs.flatMap escChar

mutual

/-- `str(·)` of one node: escaped text, `<name>…</name>` for a tag (the
rebuilt tags carry no attributes), `<!--…-->` for a comment. -/
def serializeNode : HNode → List Char
  | HNode.text s => escapeHtml s
  | HNode.tag n cs =>
    ('<' :: n ++ ['>']) ++ serializeNodes cs ++ ('<' :: '/' :: n ++ ['>'])
  | HNode.comment s => "<!--".data ++ s ++ "-->".data

/-- `str(·)` of a list of siblings. -/
def serializeNodes : List HNode → List Char
  | [] => []
  | n :: rest => serializeNode n ++ serializeNodes rest

end

mutual

/-- `soup.body` on one node: the first `body` tag in document order (the
node itself or a descendant), returning its children. -/
def findBodyNode : HNode → Option (List HNode)
  | HNode.text _ => none
  | HNode.comment _ => none
  | HNode.tag n cs => if n = "body".data then some cs else findBody cs

/-- `soup.body`: the first `body` tag in document order, returning its
children. -/
def findBody : List HNode → Option (List HNode)
  | [] => none
  | n :: rest =>
    match findBodyNode n with
    | some r => some r
    | none => findBody rest

end

/-- Match a pattern (given in lowercase) case-insensitively against a
prefix of the input, returning the rest. -/
def matchCI : List Char → List Char → Option (List Char)
  | [], cs => some cs
  | _ :: _, [] => none
  | p :: ps, c :: cs => if c.toLower = p then matchCI ps cs else none

/-- `[^>]*>`: drop up to and including the first `>`. -/
def consumeToGt : List Char → Option (List Char)
  | [] => none
  | c :: cs => if c = '>' then some cs else consumeToGt cs

/-- `.*?pat` with `re.DOTALL`: drop up to and including the first
(case-insensitive) occurrence of `pat`. -/
def findCloser (pat : List Char) : List Char → Option (List Char)
  | [] => none
  | c :: cs =>
    match matchCI pat (c :: cs) with
    | some rest => some rest
    | none => findCloser pat cs

/-- Try to match `name[^>]*>.*?</name>` (case-insensitively) at the
current position, `cs` being the input just after a `<`. -/
def tryStripElem (name : List Char) (cs : List Char) : Option (List Char) :=
  match matchCI name cs with
  | none => none
  | some r1 =>
    match consumeToGt r1 with
    | none => none
    | some r2 => findCloser ('<' :: '/' :: (name ++ ['>'])) r2

/-- `re.sub(r'<(script|style)[^>]*>.*?</\1>', '', ·, DOTALL|IGNORECASE)`:
scan left to right; at each `<` try the `script` alternative then the
`style` one; on a full match drop through the closer and continue after
it, otherwise emit the character and move on. Fuel-driven; the input's
length is enough fuel, since every step consumes at least one character. -/
def stripScriptStyleFuel : Nat → List Char → List Char
  | 0, cs => cs
  | _ + 1, [] => []
  | fuel + 1, c :: cs =>
    if c = '<' then
      match tryStripElem "script".data cs with
      | some rest => stripScriptStyleFuel fuel rest
      | none =>
        match tryStripElem "style".data cs with
        | some rest => stripScriptStyleFuel fuel rest
        | none => '<' :: stripScriptStyleFuel fuel cs
    else c :: stripScriptStyleFuel fuel cs

/-- The script/style stripping pre-pass (line 31 of `clean_html`). -/
def stripScriptStyle (cs : List Char) : List Char :=
  stripScriptStyleFuel (cs.length + 1) cs

/-! ### A model of `BeautifulSoup(·, "html.parser")`

`html.parser` tokenizes the markup and bs4 builds the tree with a stack
of open elements: an end tag closes up to its nearest matching open tag
and is ignored when none matches; open elements left at end of input are
closed implicitly; `script`/`style` content is raw text; void elements
never take children; tag names are lowercased; character references in
data are decoded. Adjacent string fragments are modelled as one merged
text node (`clean_html`'s observable output is insensitive to how runs
of text are split into `NavigableString`s). -/

/-- Lexer tokens. -/
inductive Tok where
  | text (s : List Char)
  | openTag (name : List Char) (selfClose : Bool)
  | closeTag (name : List Char)
  | commentTok (s : List Char)

/-- Characters `html.parser` allows inside a tag name (anything except
whitespace, `/`, `>`). -/
def isTagNameChar (c : Char) : Bool :=
  !(c = ' ' || c = '\t' || c = '\n' || c = '\r' || c = '\x0c' || c = '/' || c = '>')

/-- Scan the attribute region of a start tag up to its closing `>`,
respecting quoted values; reports whether the tag ended with `/>`.
`none` means the tag never closes (end of input). The first argument is
the currently open quote, if any. -/
def lexAttrs : Option Char → List Char → Option (Bool × List Char)
  | _, [] => none
  | some q, c :: cs => if c = q then lexAttrs none cs else lexAttrs (some q) cs
  | none, '>' :: cs => some (false, cs)
  | none, '/' :: '>' :: cs => some (true, cs)
  | none, '"' :: cs => lexAttrs (some '"') cs
  | none, '\'' :: cs => lexAttrs (some '\'') cs
  | none, _ :: cs => lexAttrs none cs

/-- Drop a literal prefix. -/
def stripPre : List Char → List Char → Option (List Char)
  | [], cs => some cs
  | _ :: _, [] => none
  | p :: ps, c :: cs => if c = p then stripPre ps cs else none

/-- Decode a character reference after a `&` (the named and numeric
entities that can arise here). -/
def parseEntity (cs : List Char) : Option (Char × List Char) :=
  match stripPre "amp;".data cs with
  | some r => some ('&', r)
  | none =>
  match stripPre "lt;".data cs with
  | some r => some ('<', r)
  | none =>
  match stripPre "gt;".data cs with
  | some r => some ('>', r)
  | none =>
  match stripPre "quot;".data cs with
  | some r => some ('"', r)
  | none =>
  match stripPre "apos;".data cs with
  | some r => some ('\'', r)
  | none =>
  match stripPre "nbsp;".data cs with
  | some r => some ('\xa0', r)
  | none =>
  match stripPre "#39;".data cs with
  | some r => some ('\'', r)
  | none => none

/-- Scan a comment body up to `-->` (or end of input). -/
def scanComment : List Char → List Char × List Char
  | [] => ([], [])
  | '-' :: '-' :: '>' :: cs => ([], cs)
  | c :: cs =>
    let (t, r) := scanComment cs
    (c :: t, r)

/-- Scan a `<!…>` declaration / bogus comment up to `>`. -/
def scanDecl : List Char → List Char × List Char
  | [] => ([], [])
  | '>' :: cs => ([], cs)
  | c :: cs =>
    let (t, r) := scanDecl cs
    (c :: t, r)

/-- Drop up to and including the first occurrence of a character. -/
def skipToChar (q : Char) : List Char → Option (List Char)
  | [] => none
  | c :: cs => if c = q then some cs else skipToChar q cs

/-- Lex an end tag, `cs` being the input just after `</`: a letter-led
name, then anything up to the `>`. -/
def lexEnd (cs : List Char) : Option (List Char × List Char) :=
  match cs with
  | [] => none
  | c :: rest =>
    if c.isAlpha then
      match skipToChar '>' ((c :: rest).dropWhile isTagNameChar) with
      | some r => some (((c :: rest).takeWhile isTagNameChar).map Char.toLower, r)
      | none => none
    else none

/-- Lex a start tag, `cs` being the input just after `<`: a letter-led
name, then the attribute region. -/
def lexOpen (cs : List Char) : Option (List Char × Bool × List Char) :=
  match cs with
  | [] => none
  | c :: rest =>
    if c.isAlpha then
      match lexAttrs none ((c :: rest).dropWhile isTagNameChar) with
      | some (sc, r) => some (((c :: rest).takeWhile isTagNameChar).map Char.toLower, sc, r)
      | none => none
    else none

/-- The elements whose content `html.parser` treats as raw text. -/
def rawTextTags : List (List Char) := ["script", "style"].map String.data

/-- The HTML void elements (never given children by the tree builder). -/
def voidTags : List (List Char) :=
  ["area", "base", "br", "col", "embed", "hr", "img", "input", "link",
   "meta", "param", "source", "track", "wbr"].map String.data

/-- Does this position close the raw-text element `name`
(`</\s*name` …`>`)? Returns the rest after the `>`. -/
def rawClose (name : List Char) (cs : List Char) : Option (List Char) :=
  match cs with
  | '<' :: '/' :: cs2 =>
    match matchCI name (cs2.dropWhile isPyWs) with
    | some cs3 => skipToChar '>' cs3
    | none => none
  | _ => none

/-- Scan raw text up to the closer of `name`: returns the raw content and
the rest after the closer (`none` when the element is left open at end of
input). -/
def rawScan (name : List Char) : List Char → List Char × Option (List Char)
  | [] => ([], none)
  | c :: cs =>
    match rawClose name (c :: cs) with
    | some rest => ([], some rest)
    | none =>
      let (t, r) := rawScan name cs
      (c :: t, r)

/-- The lexer. Fuel-driven; every step consumes at least one character,
so the input's length is enough fuel. -/
def lexHtml : Nat → List Char → List Tok
  | 0, _ => []
  | _ + 1, [] => []
  | fuel + 1, '<' :: cs =>
    match cs with
    | '!' :: cs2 =>
      match cs2 with
      | '-' :: '-' :: cs3 =>
        let (t, r) := scanComment cs3
        Tok.commentTok t :: lexHtml fuel r
      | _ =>
        let (t, r) := scanDecl cs2
        Tok.commentTok t :: lexHtml fuel r
    | '/' :: cs2 =>
      match lexEnd cs2 with
      | some (nm, r) => Tok.closeTag nm :: lexHtml fuel r
      | none => Tok.text ['<'] :: lexHtml fuel cs
    | _ =>
      match lexOpen cs with
      | some (nm, sc, r) =>
        if sc then Tok.openTag nm true :: lexHtml fuel r
        else if nm ∈ rawTextTags then
          match rawScan nm r with
          | (raw, some r2) =>
            Tok.openTag nm false :: Tok.text raw :: Tok.closeTag nm :: lexHtml fuel r2
          | (raw, none) => [Tok.openTag nm false, Tok.text raw]
        else Tok.openTag nm false :: lexHtml fuel r
      | none => Tok.text ['<'] :: lexHtml fuel cs
  | fuel + 1, '&' :: cs =>
    match parseEntity cs with
    | some (ch, r) => Tok.text [ch] :: lexHtml fuel r
    | none => Tok.text ['&'] :: lexHtml fuel cs
  | fuel + 1, c :: cs => Tok.text [c] :: lexHtml fuel cs

/-- Append a child, merging adjacent text nodes. -/
def pushChild (acc : List HNode) (n : HNode) : List HNode :=
  match acc, n with
  | [], n => [n]
  | [HNode.text s], HNode.text s2 => [HNode.text (s ++ s2)]
  | [a], n => [a, n]
  | a :: as, n => a :: pushChild as n

/-- An open element: its name and the children accumulated so far. -/
abbrev Frame := List Char × List HNode

/-- Attach a finished node to the innermost open element, or to the root
when none is open. -/
def attachNode (stack : List Frame) (root : List HNode) (n : HNode) :
    List Frame × List HNode :=
  match stack with
  | [] => ([], pushChild root n)
  | (nm, acc) :: rest => ((nm, pushChild acc n) :: rest, root)

/-- Is some open element named `nm`? -/
def stackHasName (stack : List Frame) (nm : List Char) : Bool :=
  stack.any (fun f => f.1 = nm)

/-- Close the innermost open element and keep closing outward until an
element named `target` has been closed (bs4's `_popToTag`); the first
argument is the innermost frame, the second the rest of the stack. -/
def popGo (target : List Char) : Frame → List Frame → List HNode →
    List Frame × List HNode
  | (n1, acc), [], root =>
    if n1 = target then ([], pushChild root (HNode.tag n1 acc))
    else ([], pushChild root (HNode.tag n1 acc))
  | (n1, acc), (n2, acc2) :: rest2, root =>
    if n1 = target then ((n2, pushChild acc2 (HNode.tag n1 acc)) :: rest2, root)
    else popGo target (n2, pushChild acc2 (HNode.tag n1 acc)) rest2 root

/-- Close open elements up to and including the nearest one named
`target`. -/
def popTo (target : List Char) : List Frame → List HNode → List Frame × List HNode
  | [], root => ([], root)
  | f :: rest, root => popGo target f rest root

/-- Close the innermost open element and keep closing outward to the
bottom of the stack. -/
def unwindGo : Frame → List Frame → List HNode → List HNode
  | (n1, acc), [], root => pushChild root (HNode.tag n1 acc)
  | (n1, acc), (n2, acc2) :: rest2, root =>
    unwindGo (n2, pushChild acc2 (HNode.tag n1 acc)) rest2 root

/-- Close every element still open at end of input. -/
def unwindStack : List Frame → List HNode → List HNode
  | [], root => root
  | f :: rest, root => unwindGo f rest root

/-- The tree builder. -/
def buildNodes : List Tok → List Frame → List HNode → List HNode
  | [], stack, root => unwindStack stack root
  | Tok.text s :: ts, stack, root =>
    let (st, rt) := attachNode stack root (HNode.text s)
    buildNodes ts st rt
  | Tok.commentTok s :: ts, stack, root =>
    let (st, rt) := attachNode stack root (HNode.comment s)
    buildNodes ts st rt
  | Tok.openTag nm sc :: ts, stack, root =>
    if sc || nm ∈ voidTags then
      let (st, rt) := attachNode stack root (HNode.tag nm [])
      buildNodes ts st rt
    else buildNodes ts ((nm, []) :: stack) root
  | Tok.closeTag nm :: ts, stack, root =>
    if stackHasName stack nm then
      let (st, rt) := popTo nm stack root
      buildNodes ts st rt
    else buildNodes ts stack root

/-- `BeautifulSoup(cs, "html.parser")`: the document's top-level nodes. -/
def parseHtml (cs : List Char) : List HNode :=
  buildNodes (lexHtml (cs.length + 1) cs) [] []

/-- Lines 34–78 of `clean_html`, after the script/style pre-pass: find the
start node (`soup.body` if present, else the whole soup — either way a tag
that is not allow-listed, so its children are processed under the new
`body`), rebuild, prune empty tags (the loop's snapshot includes the new
`body` itself: when nothing with visible text remains, `body` is
decomposed and `str(new_soup.body)` is `str(None)`, the four characters
`None`), serialize, and collapse whitespace. -/
def startNodes (parsed : List HNode) : List HNode :=
  match findBody parsed with
  | some cs => cs
  | none => parsed

/-- The rebuild/prune/serialize pipeline applied to a parsed document
(see `startNodes` for the walk's start point). -/
def cleanCore (parsed : List HNode) : String :=
  let ps := processNodes (startNodes parsed)
  if hasContentNodes ps then
    ⟨collapseWsChars ("<body>".data ++ serializeNodes (pruneNodes ps) ++ "</body>".data)⟩
  else "None"

/-- `clean_html`: empty or missing content yields `""`; otherwise strip
script/style elements, parse, and run the rebuild/prune/serialize
pipeline. (The catch-all `except` never fires in this model; every
operation is total.) -/
def clean_html : Option String → String
  | none => ""
  | some s =>
    if s = "" then ""
    else cleanCore (parseHtml (stripScriptStyle s.data))

/-! ### Tree classes and normal forms used to reason about `clean_html`

`allowedForest` formalizes "HTML containing only allow-listed tags and
plain text"; the remaining predicates and transforms describe the shape
of `clean_html`'s own output (`body`-compatible tag names, no adjacent
or empty text nodes, every tag with visible text, text whitespace
already squeezed), which the idempotence argument pushes through one
more parse/rebuild/serialize round. -/

/-- Is this node a `NavigableString`? -/
def isTextNode : HNode → Bool
  | HNode.text _ => true
  | _ => false

/-- The last accumulated child is a text node (the only case in which
`pushChild` merges instead of appending). -/
def lastIsText (acc : List HNode) : Bool :=
  match acc.getLast? with
  | some n => isTextNode n
  | none => false

mutual

/-- Only allow-listed tags and plain text below this node (no comments:
a comment in the source HTML is neither a tag nor plain text). -/
def allowedNode : HNode → Bool
  | HNode.text _ => true
  | HNode.comment _ => false
  | HNode.tag n cs => decide (n ∈ allowedTags) && allowedForest cs

/-- Only allow-listed tags and plain text in this forest. -/
def allowedForest : List HNode → Bool
  | [] => true
  | n :: rest => allowedNode n && allowedForest rest

end

/-- A tag name the lexer reproduces verbatim and the stripping pre-pass
and whitespace collapsing leave alone: letter-led, made of name
characters other than `<`, already lowercase, not a raw-text or void
element, not starting with `s` (so no `script`/`style` opener can
arise), and whitespace-free. Every allow-listed name and `body`
qualify. -/
def goodTagName : List Char → Bool
  | [] => false
  | c :: rest =>
    c.isAlpha && (c :: rest).all (fun ch => isTagNameChar ch && ch ≠ '<') &&
      ((c :: rest).map Char.toLower == c :: rest) &&
      !(rawTextTags.contains (c :: rest)) && !(voidTags.contains (c :: rest)) &&
      c.toLower ≠ 's' && (c :: rest).all (fun ch => !(isPyWs ch))

mutual

/-- A node of the serializer-stable class: nonempty texts, good tag
names, no comments, and no two adjacent texts anywhere. -/
def cleanNode : HNode → Bool
  | HNode.text s => !s.isEmpty
  | HNode.comment _ => false
  | HNode.tag n cs => goodTagName n && cleanForest cs

/-- A forest of the serializer-stable class. -/
def cleanForest : List HNode → Bool
  | [] => true
  | [n] => cleanNode n
  | n :: m :: rest =>
    cleanNode n && !(isTextNode n && isTextNode m) && cleanForest (m :: rest)

end

mutual

/-- Every tag below this node (itself included) has visible text — the
shape `pruneNodes` guarantees. -/
def prunedNode : HNode → Bool
  | HNode.text _ => true
  | HNode.comment _ => true
  | HNode.tag _ cs => hasContentNodes cs && prunedForest cs

/-- Every tag in this forest has visible text. -/
def prunedForest : List HNode → Bool
  | [] => true
  | n :: rest => prunedNode n && prunedForest rest

end

mutual

/-- Normalize below a node: merge adjacent text nodes and drop empty
ones (invisible to serialization, `get_text` and pruning). -/
def normNode : HNode → HNode
  | HNode.text s => HNode.text s
  | HNode.comment s => HNode.comment s
  | HNode.tag n cs => HNode.tag n (normForest cs)

/-- Normalize a forest: merge adjacent text nodes and drop empty ones. -/
def normForest : List HNode → List HNode
  | [] => []
  | HNode.text s :: rest =>
    let r := normForest rest
    if s.isEmpty then r
    else
      match r with
      | HNode.text t :: r2 => HNode.text (s ++ t) :: r2
      | _ => HNode.text s :: r
  | n :: rest => normNode n :: normForest rest

end

mutual

/-- Apply `re.sub(r'\s+', ' ', ·)` to every text of a node. -/
def squeezeNode : HNode → HNode
  | HNode.text s => HNode.text (squeezeWs false s)
  | HNode.comment s => HNode.comment s
  | HNode.tag n cs => HNode.tag n (squeezeForest cs)

/-- Apply `re.sub(r'\s+', ' ', ·)` to every text of a forest. -/
def squeezeForest : List HNode → List HNode
  | [] => []
  | n :: rest => squeezeNode n :: squeezeForest rest

end

mutual

/-- The token stream the lexer produces for the serialization of one
clean node (text tokens come one character at a time). -/
def tokensOfNode : HNode → List Tok
  | HNode.text s => s.map (fun c => Tok.text [c])
  | HNode.comment s => [Tok.commentTok s]
  | HNode.tag n cs => Tok.openTag n false :: (tokensOf cs ++ [Tok.closeTag n])

/-- The token stream for the serialization of a clean forest. -/
def tokensOf : List HNode → List Tok
  | [] => []
  | n :: rest => tokensOfNode n ++ tokensOf rest

end

/-- No `<` immediately followed by `s`/`S` anywhere: on such input the
script/style stripping pre-pass is the identity. -/
def noScriptOpen : List Char → Bool
  | [] => true
  | '<' :: c :: rest => c.toLower ≠ 's' && noScriptOpen (c :: rest)
  | _ :: rest => noScriptOpen rest

/-! ## CSV batch writer: `JSONToCSVConverter.convert`

The `csv.DictWriter` uses the default `excel` dialect: comma delimiter,
minimal quoting with `"` doubled inside quoted fields, and `\r\n` line
terminator (the file is opened with `newline=''`, so the terminator is
written verbatim). `csv_file.tell()` is the number of UTF-8 bytes written
so far. -/

/-- One output record, in the converter's fixed field order. -/
structure Row where
  content : String
  id : String
  last_updated : String
  title : String
  url : String
deriving Repr, DecidableEq

/-- `QUOTE_MINIMAL`: a field is quoted iff it contains the delimiter, the
quote character, or a CR/LF. -/
def needsQuote (s : String) : Bool :=
  s.data.any (fun c => c = ',' || c = '"' || c = '\r' || c = '\n')

/-- One serialized CSV field under the `excel` dialect. -/
def csvField (s : String) : String :=
  if needsQuote s then
    "\"" ++ ⟨s.data.flatMap (fun c => if c = '"' then ['"', '"'] else [c])⟩ ++ "\""
  else s

/-- One serialized CSV data row (the bytes one `writerow` call appends). -/
def csvLine (r : Row) : String :=
  csvField r.content ++ "," ++ csvField r.id ++ "," ++ csvField r.last_updated ++ "," ++
    csvField r.title ++ "," ++ csvField r.url ++ "\r\n"

/-- The header row `writeheader` writes at the start of every file. -/
def headerLine : String := "content,id,last_updated,title,url\r\n"

/-- `data_<n>.csv`. -/
def csvFileName (n : Nat) : String := "data_" ++ toString n ++ ".csv"

/-- One physical output file: its sequence number, its name, every byte
written to it, and the list of data rows written to it. -/
structure CsvFile where
  idx : Nat
  name : String
  content : String
  rows : List Row
deriving Repr, DecidableEq

/-- Opening file number `n` writes the header immediately. -/
def newFile (n : Nat) : CsvFile :=
  { idx := n, name := csvFileName n, content := headerLine, rows := [] }

/-- `csv_file.tell()`: bytes written to the open file so far. -/
def fileSize (f : CsvFile) : Nat := f.content.utf8ByteSize

/-- The writer's state: the files already closed (in order) and the one
currently open file. -/
structure WriterState where
  closed : List CsvFile
  cur : CsvFile
deriving Repr, DecidableEq

/-- The initial state: `data_1.csv` open with its header written. -/
def initWriter : WriterState := { closed := [], cur := newFile 1 }

/-- Append one data row to a file. -/
def appendRow (f : CsvFile) (r : Row) : CsvFile :=
  { f with content := f.content ++ csvLine r, rows := f.rows ++ [r] }

/-- Lines 127–135 of `convert`: write the row, then if `tell()` has reached
`maxBytes`, close the file and open the next sequentially-numbered one
with a fresh header. -/
def writeRow (maxBytes : Nat) (s : WriterState) (r : Row) : WriterState :=
  let f := appendRow s.cur r
  if maxBytes ≤ fileSize f then
    { closed := s.closed ++ [f], cur := newFile (f.idx + 1) }
  else
    { closed := s.closed, cur := f }

/-- The writer run over a sequence of emitted rows. -/
def runWriter (maxBytes : Nat) (rows : List Row) : WriterState :=
  rows.foldl (writeRow maxBytes) initWriter

/-- All files `convert` leaves on disk: the closed ones followed by the
final open file, which is closed at the end of the run. -/
def writtenFiles (maxBytes : Nat) (rows : List Row) : List CsvFile :=
  (runWriter maxBytes rows).closed ++ [(runWriter maxBytes rows).cur]

/-- One crawled document, with the fields `convert` reads:
`obj.get('content')` (possibly absent), `obj.get('metadata', {}).get('title', "")`
and `obj.get('url', "")`. -/
structure Doc where
  content : Option String
  title : String
  url : String
deriving Repr, DecidableEq

/-- Line 110 of `convert`: the row is skipped when the cleaned content is
falsy, is the literal string `"None"`, or strips to the empty string (the
`is None` disjunct is dead — `clean_html` always returns a string). -/
def rowSkipped (cleaned : String) : Bool :=
  cleaned = "" || cleaned = "None" || pyStrip cleaned = ""

/-- Lines 104–127: the row one document contributes, if any. `now` is the
`get_current_time_iso()` timestamp; the document's URL is used for both
`id` and `url`. -/
def docRow (now : String) (d : Doc) : Option Row :=
  let cleaned := clean_html d.content
  if rowSkipped cleaned then none
  else
    some { content := cleaned, id := d.url, last_updated := now,
           title := d.title, url := d.url }

/-- The rows emitted for a document sequence, in input order. -/
def emittedRows (now : String) (docs : List Doc) : List Row :=
  docs.filterMap (docRow now)

/-- One file of the input folder: its name and its JSON payload (`none`
when the payload is not a list — such files are skipped with a warning). -/
structure InputFile where
  fname : String
  docs : Option (List Doc)
deriving Repr, DecidableEq

/-- `str.endswith`, on the character lists of the strings. -/
def strEndsWith (s suffix : String) : Bool :=
  suffix.data.isSuffixOf s.data

/-- Lines 92–102: the documents `convert` iterates over — `*.json` files
only, non-list payloads skipped. -/
def inputDocs (files : List InputFile) : List Doc :=
  ((files.filter (fun f => strEndsWith f.fname ".json")).filterMap (·.docs)).flatten

/-- `JSONToCSVConverter.convert`: clean and filter every document, write
the surviving rows through the size-bounded writer, and leave the closed
files plus the final file on disk. -/
def convert (maxBytes : Nat) (now : String) (files : List InputFile) : List CsvFile :=
  writtenFiles maxBytes (emittedRows now (inputDocs files))

/-- The bytes a list of data rows contributes to a file. -/
def rowsBytes : List Row → String
  | [] => ""
  | r :: rs => csvLine r ++ rowsBytes rs

/-- All files a writer state accounts for: the closed ones and the open
one. (The state has exactly one open file — the code keeps a single
`csv_file` handle.) -/
def allFiles (s : WriterState) : List CsvFile :=
  s.closed ++ [s.cur]

/-- The writer invariant: the open file's number is one past the closed
ones, the closed files are numbered `1, 2, …` in order, every file is
named `data_<n>.csv` after its number, every file's bytes are the header
followed by its rows' lines, and every closed file reached the size
ceiling. -/
def GoodState (maxBytes : Nat) (s : WriterState) : Prop :=
  s.cur.idx = s.closed.length + 1 ∧
  s.closed.map (·.idx) = List.range' 1 s.closed.length ∧
  (∀ f ∈ allFiles s, f.name = csvFileName f.idx) ∧
  (∀ f ∈ allFiles s, f.content = headerLine ++ rowsBytes f.rows) ∧
  (∀ f ∈ s.closed, maxBytes ≤ fileSize f)

/-- Whether the character before the current position is whitespace,
after consuming a list (used to split `squeezeWs` over appends). -/
def endWsState (b : Bool) : List Char → Bool
  | [] => b
  | c :: cs => endWsState (isPyWs c) cs

/-- A concrete one-character row used in witnesses. -/
def tinyRow : Row :=
  { content := "x", id := "", last_updated := "", title := "", url := "" }

/-- A concrete timestamp used in witnesses. -/
def exNow : String := "2024-01-01T00:00:00Z"

/-- Three documents whose rows each trigger a rollover at a 120-byte
ceiling. -/
def exDocs : List Doc :=
  [⟨some "<p>alpha bravo charlie delta</p>", "t1", "https://e.x/1"⟩,
   ⟨some "<p>echo foxtrot golf hotel</p>", "t2", "https://e.x/2"⟩,
   ⟨some "<p>india juliett kilo</p>", "t3", "https://e.x/3"⟩]

/-- The input folder holding `exDocs` in one JSON file. -/
def exInput : List InputFile := [⟨"a.json", some exDocs⟩]

/-- The row emitted for the first document of `exDocs`. -/
def exRow1 : Row :=
  { content := "<body><p>alpha bravo charlie delta</p></body>",
    id := "https://e.x/1", last_updated := exNow, title := "t1",
    url := "https://e.x/1" }

/-- The row emitted for the second document of `exDocs`. -/
def exRow2 : Row :=
  { content := "<body><p>echo foxtrot golf hotel</p></body>",
    id := "https://e.x/2", last_updated := exNow, title := "t2",
    url := "https://e.x/2" }

/-- The first file the 120-byte-ceiling run writes. -/
def exFile1 : CsvFile :=
  { idx := 1, name := "data_1.csv", content := headerLine ++ rowsBytes [exRow1],
    rows := [exRow1] }

/-- The three documents of the empty-content example: empty content,
absent content, and `<p>ok</p>`. -/
def exThree : List Doc :=
  [⟨some "", "t1", "u1"⟩, ⟨none, "t2", "u2"⟩, ⟨some "<p>ok</p>", "t3", "u3"⟩]

/-- The single row the empty-content example emits. -/
def exOkRow : Row :=
  { content := "<body><p>ok</p></body>", id := "u3", last_updated := "T",
    title := "t3", url := "u3" }

end MindStream

deriving instance DecidableEq for Except

namespace MindStream

/-! ## Theorems about the ingestor -/

/-- C1 (counterexample): the claim says the poll step is performed always,
regardless of the close step's outcome. In `envCloseFails` the job id is
obtained and the upload succeeds, yet after the failed close the trace is
exactly create, upload, close — no `getStatus` poll is ever performed,
although poll responses were available. -/
theorem C1_close_failure_skips_poll_counterexample :
    truthyId (create_bulk_ingest_job envCloseFails.createResp) = true ∧
    uploadOk envCloseFails.uploadStatus = true ∧
    close_job envCloseFails.closeStatus = false ∧
    envCloseFails.polls ≠ [] ∧
    process_csv_file envCloseFails =
      Except.ok [Action.createJob, Action.uploadData, Action.closeJob] ∧
    Action.getStatus ∉ [Action.createJob, Action.uploadData, Action.closeJob] := by
  decide

/-- C1 (amended): `process_csv_file` performs the four steps in the strict
order create, upload, close, poll; a failed create (no truthy job id) means
upload, close and poll are never invoked; a failed upload means close and
poll are never invoked; and a failed close means poll is never invoked —
poll runs exactly when the close succeeds. (The CSV file read is assumed
not to raise.) -/
theorem C1_process_csv_file_short_circuit (env : FileEnv) (s : String)
    (h : env.fileRead = Except.ok s) :
    (truthyId (create_bulk_ingest_job env.createResp) = false →
      process_csv_file env = Except.ok [Action.createJob]) ∧
    (truthyId (create_bulk_ingest_job env.createResp) = true →
      uploadOk env.uploadStatus = false →
      process_csv_file env = Except.ok [Action.createJob, Action.uploadData]) ∧
    (truthyId (create_bulk_ingest_job env.createResp) = true →
      uploadOk env.uploadStatus = true →
      close_job env.closeStatus = false →
      process_csv_file env =
        Except.ok [Action.createJob, Action.uploadData, Action.closeJob]) ∧
    (truthyId (create_bulk_ingest_job env.createResp) = true →
      uploadOk env.uploadStatus = true →
      close_job env.closeStatus = true →
      process_csv_file env =
        Except.ok ([Action.createJob, Action.uploadData, Action.closeJob] ++
          monitor_job env.polls)) := by
  refine ⟨fun h1 => ?_, fun h1 h2 => ?_, fun h1 h2 h3 => ?_, fun h1 h2 h3 => ?_⟩
  · simp [process_csv_file, h1, Except.pure]
    rfl
  · simp [process_csv_file, h, h1, h2, Except.pure]
  · simp [process_csv_file, h, h1, h2, h3, Except.pure]
  · simp [process_csv_file, h, h1, h2, h3, Except.pure]

/-- C1 witness: the amended theorem applied in each of its four cases to
concrete environments. -/
theorem C1_process_csv_file_short_circuit_witness :
    process_csv_file envCreateFails = Except.ok [Action.createJob] ∧
    process_csv_file envUploadFails =
      Except.ok [Action.createJob, Action.uploadData] ∧
    process_csv_file envCloseFails =
      Except.ok [Action.createJob, Action.uploadData, Action.closeJob] ∧
    process_csv_file envAllOk =
      Except.ok ([Action.createJob, Action.uploadData, Action.closeJob] ++
        monitor_job envAllOk.polls) := by
  refine ⟨(C1_process_csv_file_short_circuit envCreateFails "" (by decide)).1 (by decide),
    (C1_process_csv_file_short_circuit envUploadFails "" (by decide)).2.1
      (by decide) (by decide),
    (C1_process_csv_file_short_circuit envCloseFails "content,id\r\n"
      (by decide)).2.2.1 (by decide) (by decide) (by decide),
    (C1_process_csv_file_short_circuit envAllOk "content,id\r\n"
      (by decide)).2.2.2 (by decide) (by decide) (by decide)⟩

/-- C4 (counterexample): the claim calls a poll "successful" when its
status is 2xx (its failure case being "non-2xx"), and says a successful
poll with a non-terminal state is followed by a wait and another poll. On
a 201 response with state `InProgress` the loop in fact breaks at once:
one GET, no wait, no further poll — the code tests `status_code == 200`,
not 2xx. -/
theorem C4_status_201_breaks_counterexample :
    (200 ≤ 201 ∧ 201 < 300) ∧
    isTerminal (some "InProgress") = false ∧
    monitor_job [{ status := 201, state := some "InProgress" },
                 { status := 200, state := some "JobComplete" }] =
      [Action.getStatus] ∧
    Action.sleep10 ∉ [Action.getStatus] := by
  decide

/-- C4 (amended): for any run of status-200 polls with non-terminal states
followed by a poll that is terminal or has status other than 200, the loop
performs one GET and one 10-unit wait per non-terminal poll, then one
final GET and stops — no further GET and no wait after the first terminal
or non-200 response. -/
theorem C4_monitor_job_stops_at_terminal (pre : List PollResp) (r : PollResp)
    (rest : List PollResp)
    (hpre : ∀ p ∈ pre, p.status = 200 ∧ isTerminal p.state = false)
    (hr : r.status ≠ 200 ∨ isTerminal r.state = true) :
    monitor_job (pre ++ r :: rest) =
      pre.flatMap (fun _ => [Action.getStatus, Action.sleep10]) ++ [Action.getStatus] := by
  induction pre with
  | nil =>
    by_cases hs : r.status = 200
    · rcases hr with h | h
      · exact absurd hs h
      · simp [monitor_job, hs, h]
    · simp [monitor_job, hs]
  | cons p pre ih =>
    have hp := hpre p (List.mem_cons_self p pre)
    have hrest : ∀ q ∈ pre, q.status = 200 ∧ isTerminal q.state = false :=
      fun q hq => hpre q (List.mem_cons_of_mem p hq)
    simp [monitor_job, hp.1, hp.2, ih hrest]

/-- C4 witness: one non-terminal 200 poll followed by a terminal one, and
separately the amended theorem instantiated with an empty prefix. -/
theorem C4_monitor_job_stops_at_terminal_witness :
    monitor_job [{ status := 200, state := some "UploadComplete" },
                 { status := 200, state := some "Failed" },
                 { status := 200, state := some "JobComplete" }] =
      [Action.getStatus, Action.sleep10, Action.getStatus] := by
  have := C4_monitor_job_stops_at_terminal
    [{ status := 200, state := some "UploadComplete" }]
    { status := 200, state := some "Failed" }
    [{ status := 200, state := some "JobComplete" }]
    (by decide) (by decide)
  simpa using this

/-- C5: per-file isolation of `execute_bulk_ingest`: the outcome list
decomposes pointwise (each entry is `runWorker` of its own task, unaffected
by the other tasks), every submitted file yields exactly one outcome, a
worker whose processing raises is reported as `caught` with that file's
path, and every worker's outcome is either a completion or a caught
exception — never a propagated one. -/
theorem C5_execute_bulk_ingest_isolation (pre : List FileTask) (t : FileTask)
    (post : List FileTask) :
    execute_bulk_ingest (pre ++ t :: post) =
      execute_bulk_ingest pre ++ runWorker t :: execute_bulk_ingest post ∧
    (execute_bulk_ingest (pre ++ t :: post)).length =
      pre.length + 1 + post.length ∧
    (∀ e, process_csv_file t.env = Except.error e →
      runWorker t = WorkerOutcome.caught t.path e) ∧
    (∀ t' : FileTask,
      (∃ acts, process_csv_file t'.env = Except.ok acts ∧
        runWorker t' = WorkerOutcome.completed acts) ∨
      (∃ e, process_csv_file t'.env = Except.error e ∧
        runWorker t' = WorkerOutcome.caught t'.path e)) := by
  refine ⟨by simp [execute_bulk_ingest], by simp [execute_bulk_ingest]; omega,
    fun e he => by simp [runWorker, he], fun t' => ?_⟩
  cases hp : process_csv_file t'.env with
  | ok acts => exact Or.inl ⟨acts, rfl, by simp [runWorker, hp]⟩
  | error e => exact Or.inr ⟨e, rfl, by simp [runWorker, hp]⟩

/-- C5 witness: three files, the middle one's processing raising; files 1
and 3 run to completion, file 2's exception is caught with its path, and
the caller receives a plain three-outcome list. -/
theorem C5_execute_bulk_ingest_isolation_witness :
    execute_bulk_ingest
        [⟨"data_1.csv", envAllOk⟩, ⟨"data_2.csv", envReadRaises⟩,
         ⟨"data_3.csv", envAllOk⟩] =
      [runWorker ⟨"data_1.csv", envAllOk⟩,
       WorkerOutcome.caught "data_2.csv" "FileNotFoundError",
       runWorker ⟨"data_3.csv", envAllOk⟩] := by
  have h := C5_execute_bulk_ingest_isolation [⟨"data_1.csv", envAllOk⟩]
    ⟨"data_2.csv", envReadRaises⟩ [⟨"data_3.csv", envAllOk⟩]
  have h2 := h.2.2.1 "FileNotFoundError" (by decide)
  rw [show ([⟨"data_1.csv", envAllOk⟩, ⟨"data_2.csv", envReadRaises⟩,
      ⟨"data_3.csv", envAllOk⟩] : List FileTask) =
      [⟨"data_1.csv", envAllOk⟩] ++ ⟨"data_2.csv", envReadRaises⟩ ::
        [⟨"data_3.csv", envAllOk⟩] from rfl, h.1, h2]
  simp [execute_bulk_ingest]

/-! ## Theorems about the CSV batch writer -/

theorem rowsBytes_append (rs : List Row) (r : Row) :
    rowsBytes (rs ++ [r]) = rowsBytes rs ++ csvLine r := by
  induction rs with
  | nil => simp [rowsBytes]
  | cons a as ih => simp [rowsBytes, ih, String.append_assoc]

theorem goodState_init (maxBytes : Nat) : GoodState maxBytes initWriter := by
  refine ⟨rfl, rfl, ?_, ?_, ?_⟩ <;>
    simp [allFiles, initWriter, newFile, rowsBytes]

theorem goodState_step (maxBytes : Nat) (s : WriterState) (r : Row)
    (h : GoodState maxBytes s) : GoodState maxBytes (writeRow maxBytes s r) := by
  obtain ⟨h1, h2, h3, h4, h5⟩ := h
  have hnm : (appendRow s.cur r).name = s.cur.name := rfl
  have hix : (appendRow s.cur r).idx = s.cur.idx := rfl
  have hct : (appendRow s.cur r).content = headerLine ++ rowsBytes (appendRow s.cur r).rows := by
    show s.cur.content ++ csvLine r = headerLine ++ rowsBytes (s.cur.rows ++ [r])
    rw [h4 s.cur (by simp [allFiles]), rowsBytes_append, String.append_assoc]
  unfold writeRow
  by_cases hf : maxBytes ≤ fileSize (appendRow s.cur r)
  · rw [if_pos hf]
    refine ⟨?_, ?_, ?_, ?_, ?_⟩
    · simp [newFile, hix, h1]
    · simp only [List.map_append, h2, hix, List.length_append, List.map_cons,
        List.map_nil, h1, List.length_cons, List.length_nil]
      rw [List.range'_concat]
      simp [Nat.add_comm]
    · intro f hfm
      simp only [allFiles, List.mem_append, List.mem_cons, List.not_mem_nil,
        or_false] at hfm
      rcases hfm with (hc | hc) | hc
      · exact h3 f (by simp [allFiles, hc])
      · subst hc; rw [hnm, hix]; exact h3 s.cur (by simp [allFiles])
      · subst hc; rfl
    · intro f hfm
      simp only [allFiles, List.mem_append, List.mem_cons, List.not_mem_nil,
        or_false] at hfm
      rcases hfm with (hc | hc) | hc
      · exact h4 f (by simp [allFiles, hc])
      · subst hc; exact hct
      · subst hc; simp [newFile, rowsBytes]
    · intro f hfm
      rcases List.mem_append.mp hfm with hc | hc
      · exact h5 f hc
      · rw [List.mem_singleton.mp hc]; exact hf
  · rw [if_neg hf]
    refine ⟨by simpa [hix] using h1, h2, ?_, ?_, h5⟩
    · intro f hfm
      simp only [allFiles, List.mem_append, List.mem_cons, List.not_mem_nil,
        or_false] at hfm
      rcases hfm with hc | hc
      · exact h3 f (by simp [allFiles, hc])
      · subst hc; rw [hnm, hix]; exact h3 s.cur (by simp [allFiles])
    · intro f hfm
      simp only [allFiles, List.mem_append, List.mem_cons, List.not_mem_nil,
        or_false] at hfm
      rcases hfm with hc | hc
      · exact h4 f (by simp [allFiles, hc])
      · subst hc; exact hct

theorem goodState_foldl (maxBytes : Nat) (rows : List Row) :
    ∀ s, GoodState maxBytes s →
      GoodState maxBytes (rows.foldl (writeRow maxBytes) s) := by
  induction rows with
  | nil => exact fun s h => h
  | cons r rs ih => exact fun s h => ih _ (goodState_step maxBytes s r h)

theorem runWriter_good (maxBytes : Nat) (rows : List Row) :
    GoodState maxBytes (runWriter maxBytes rows) :=
  goodState_foldl maxBytes rows initWriter (goodState_init maxBytes)

theorem writeRow_rows_flatten (maxBytes : Nat) (s : WriterState) (r : Row) :
    ((allFiles (writeRow maxBytes s r)).map (·.rows)).flatten =
      ((allFiles s).map (·.rows)).flatten ++ [r] := by
  unfold writeRow
  by_cases hf : maxBytes ≤ fileSize (appendRow s.cur r)
  · rw [if_pos hf]
    simp [allFiles, appendRow, newFile]
  · rw [if_neg hf]
    simp [allFiles, appendRow]

theorem foldl_rows_flatten (maxBytes : Nat) (rows : List Row) :
    ∀ s, ((allFiles (rows.foldl (writeRow maxBytes) s)).map (·.rows)).flatten =
      ((allFiles s).map (·.rows)).flatten ++ rows := by
  induction rows with
  | nil => intro s; simp
  | cons r rs ih =>
    intro s
    rw [List.foldl_cons, ih (writeRow maxBytes s r), writeRow_rows_flatten]
    simp

theorem writtenFiles_rows_flatten (maxBytes : Nat) (rows : List Row) :
    ((writtenFiles maxBytes rows).map (·.rows)).flatten = rows := by
  have h := foldl_rows_flatten maxBytes rows initWriter
  simpa [runWriter, writtenFiles, allFiles, initWriter, newFile] using h

theorem closed_prefix_foldl (maxBytes : Nat) (rows : List Row) :
    ∀ s : WriterState, s.closed <+: (rows.foldl (writeRow maxBytes) s).closed := by
  induction rows with
  | nil => intro s; exact List.prefix_refl _
  | cons r rs ih =>
    intro s
    refine List.IsPrefix.trans ?_ (ih (writeRow maxBytes s r))
    unfold writeRow
    by_cases hf : maxBytes ≤ fileSize (appendRow s.cur r)
    · rw [if_pos hf]; exact ⟨[appendRow s.cur r], rfl⟩
    · rw [if_neg hf]

/-- C2: the batch-file invariant of `convert`. At most one file is open
at a time (the writer state carries a single open file by construction);
the files on disk are numbered `1, 2, 3, …` with names `data_<n>.csv`;
every file's bytes are the header row followed by its data rows, so every
file begins with the header `content,id,last_updated,title,url`; every
file except possibly the last reached `maxBytesPerFile` at the row-write
that sealed it; the data rows of all files, in file order, are exactly
the emitted rows in input order; and a sealed file is never written
again — the closed-file list after any further input extends the earlier
one as a prefix. -/
theorem C2_convert_batch_invariants (maxBytes : Nat) (now : String)
    (files : List InputFile) :
    (convert maxBytes now files).map (·.idx) =
      List.range' 1 (convert maxBytes now files).length ∧
    (∀ f ∈ convert maxBytes now files, f.name = csvFileName f.idx) ∧
    (∀ f ∈ convert maxBytes now files,
      f.content = headerLine ++ rowsBytes f.rows) ∧
    (∀ f ∈ (convert maxBytes now files).dropLast, maxBytes ≤ fileSize f) ∧
    ((convert maxBytes now files).map (·.rows)).flatten =
      emittedRows now (inputDocs files) ∧
    (∀ (rows more : List Row) (mb : Nat),
      (runWriter mb rows).closed <+: (runWriter mb (rows ++ more)).closed) := by
  obtain ⟨h1, h2, h3, h4, h5⟩ := runWriter_good maxBytes (emittedRows now (inputDocs files))
  have hconv : convert maxBytes now files =
      allFiles (runWriter maxBytes (emittedRows now (inputDocs files))) := rfl
  refine ⟨?_, ?_, ?_, ?_, ?_, ?_⟩
  · rw [hconv]
    simp only [allFiles, List.map_append, List.map_cons, List.map_nil, h2, h1,
      List.length_append, List.length_cons, List.length_nil]
    rw [List.range'_concat]
    simp [Nat.add_comm]
  · rw [hconv]; exact h3
  · rw [hconv]; exact h4
  · rw [hconv]
    intro f hf
    rw [allFiles, List.dropLast_concat] at hf
    exact h5 f hf
  · exact writtenFiles_rows_flatten maxBytes _
  · intro rows more mb
    have := closed_prefix_foldl mb more (runWriter mb rows)
    simpa [runWriter, List.foldl_append] using this

/-- C10: `convert` can leave a final file holding only the header: when
the writer's input is empty the single file `data_1.csv` holds just the
header, and when the last emitted row seals the open file, the writer
opens file `n+1` with a fresh header and closes it empty at the end of
the run. -/
theorem C10_header_only_final_file (maxBytes : Nat) (now : String)
    (files : List InputFile) :
    (emittedRows now (inputDocs files) = [] →
      convert maxBytes now files = [newFile 1]) ∧
    (∀ (rows : List Row) (r : Row),
      maxBytes ≤ fileSize (appendRow (runWriter maxBytes rows).cur r) →
      (runWriter maxBytes (rows ++ [r])).cur =
        newFile ((runWriter maxBytes rows).cur.idx + 1) ∧
      writtenFiles maxBytes (rows ++ [r]) =
        (runWriter maxBytes rows).closed ++
          [appendRow (runWriter maxBytes rows).cur r,
           newFile ((runWriter maxBytes rows).cur.idx + 1)]) ∧
    (∀ n, (newFile n).content = headerLine ∧ (newFile n).rows = []) := by
  refine ⟨?_, ?_, fun n => ⟨rfl, rfl⟩⟩
  · intro h
    rw [show convert maxBytes now files =
      writtenFiles maxBytes (emittedRows now (inputDocs files)) from rfl, h]
    rfl
  · intro rows r hf
    have hrun : runWriter maxBytes (rows ++ [r]) =
        writeRow maxBytes (runWriter maxBytes rows) r := by
      simp [runWriter, List.foldl_append]
    have hw : writeRow maxBytes (runWriter maxBytes rows) r =
        { closed := (runWriter maxBytes rows).closed ++
            [appendRow (runWriter maxBytes rows).cur r],
          cur := newFile ((runWriter maxBytes rows).cur.idx + 1) } := by
      unfold writeRow
      rw [if_pos hf]
      rfl
    refine ⟨by rw [hrun, hw], ?_⟩
    rw [writtenFiles, hrun, hw]
    simp

/-- C2 witness: the invariants instantiated on a concrete run (120-byte
ceiling, three documents, four resulting files), applying the theorem to
the first written file and a concrete prefix pair. -/
theorem C2_convert_batch_invariants_witness :
    (convert 120 exNow exInput).map (·.idx) =
      List.range' 1 (convert 120 exNow exInput).length ∧
    exFile1.name = csvFileName exFile1.idx ∧
    exFile1.content = headerLine ++ rowsBytes exFile1.rows ∧
    120 ≤ fileSize exFile1 ∧
    ((convert 120 exNow exInput).map (·.rows)).flatten =
      emittedRows exNow (inputDocs exInput) ∧
    (runWriter 120 [exRow1]).closed <+: (runWriter 120 ([exRow1] ++ [exRow2])).closed := by
  have h := C2_convert_batch_invariants 120 exNow exInput
  exact ⟨h.1, h.2.1 exFile1 (by decide), h.2.2.1 exFile1 (by decide),
    h.2.2.2.1 exFile1 (by decide), h.2.2.2.2.1, h.2.2.2.2.2 [exRow1] [exRow2] 120⟩

/-- C10 witness: with a 40-byte ceiling, a single row whose write reaches
the ceiling leaves `data_2.csv` holding only the header; and with no
input at all, exactly `data_1.csv` with only the header is produced. -/
theorem C10_header_only_final_file_witness :
    convert 40 "T" [] = [newFile 1] ∧
    (runWriter 40 ([] ++ [tinyRow])).cur = newFile 2 := by
  refine ⟨(C10_header_only_final_file 40 "T" []).1 rfl, ?_⟩
  have h := ((C10_header_only_final_file 40 "T" []).2.1 [] tinyRow (by decide)).1
  simpa using h

end MindStream

namespace MindStream

/-! ## Theorems about the sanitizer and row emission -/

/-- C3: a document yields a CSV row iff its sanitized content is non-empty
after trimming and differs from the literal placeholder `"None"`; rows are
dropped locally (the rest of the batch is unaffected); and on the three
documents `[{content: ""}, {content: null}, {content: "<p>ok</p>"}]`
exactly one data row — the one for "ok" — ends up in the single output
file. -/
theorem C3_row_emission_filter (now : String) (d : Doc) (ds : List Doc) :
    (docRow now d ≠ none ↔
      pyStrip (clean_html d.content) ≠ "" ∧ clean_html d.content ≠ "None") ∧
    emittedRows now (d :: ds) = (docRow now d).toList ++ emittedRows now ds ∧
    emittedRows "T" exThree = [exOkRow] ∧
    ((convert (100 * 1024 * 1024) "T" [⟨"chunk.json", some exThree⟩]).map
      (·.rows)).flatten = [exOkRow] ∧
    (convert (100 * 1024 * 1024) "T" [⟨"chunk.json", some exThree⟩]).length = 1 := by
  refine ⟨?_, ?_, by decide, by decide, by decide⟩
  · constructor
    · intro h
      by_cases h1 : rowSkipped (clean_html d.content)
      · exact absurd (by simp [docRow, h1]) h
      · simp only [rowSkipped, Bool.or_eq_true, decide_eq_true_eq] at h1
        push_neg at h1
        exact ⟨h1.2, h1.1.2⟩
    · rintro ⟨hp, hn⟩
      have hne : clean_html d.content ≠ "" := by
        intro he
        exact hp (by rw [he]; rfl)
      simp [docRow, rowSkipped, hne, hn, hp]
  · cases h : docRow now d <;> simp [emittedRows, List.filterMap_cons, h]

/-- C3 witness: the emission filter instantiated on the three-document
example. -/
theorem C3_row_emission_filter_witness :
    emittedRows "T" exThree = [exOkRow] :=
  (C3_row_emission_filter "T" ⟨none, "", ""⟩ []).2.2.1

/-- C6: `clean_html` is a total function of its input — the embedding of
"never raises" — and returns the empty string on missing (`None`) and
empty input. (The catch-all `except` branch of the source returns `""`;
in this total model no internal operation can fail, so the branch is
unreachable.) -/
theorem C6_clean_html_never_raises :
    clean_html none = "" ∧ clean_html (some "") = "" ∧
    ∀ c : Option String, ∃ r : String, clean_html c = r :=
  ⟨rfl, rfl, fun c => ⟨clean_html c, rfl⟩⟩

/-- C8: a non-empty input whose sanitized tree has no non-whitespace text
makes the prune loop decompose the new `body` tag itself, and
`str(new_soup.body)` serializes the missing body as Python's `str(None)`:
the literal four-character string `None`. The convert loop's comparison
against `"None"` then drops exactly such rows. -/
theorem C8_whitespace_only_input_yields_None (s : String) (hne : s ≠ "")
    (hws : hasContentNodes (processNodes (startNodes
      (parseHtml (stripScriptStyle s.data)))) = false) :
    clean_html (some s) = "None" ∧
    ∀ (now title url : String), emittedRows now [⟨some s, title, url⟩] = [] := by
  have hc : clean_html (some s) = "None" := by
    simp only [clean_html, if_neg hne, cleanCore]
    rw [if_neg (by rw [hws]; exact Bool.false_ne_true)]
  refine ⟨hc, fun now title url => ?_⟩
  simp [emittedRows, docRow, hc, rowSkipped]

/-- C8 witness: `<div>   </div>` — a div holding only spaces — sanitizes
to the literal `None` and is dropped by the converter. -/
theorem C8_whitespace_only_input_yields_None_witness :
    clean_html (some "<div>   </div>") = "None" ∧
    emittedRows "T" [⟨some "<div>   </div>", "t", "u"⟩] = [] :=
  ⟨(C8_whitespace_only_input_yields_None "<div>   </div>" (by decide) (by decide)).1,
   (C8_whitespace_only_input_yields_None "<div>   </div>" (by decide) (by decide)).2
     "T" "t" "u"⟩

theorem squeezeWs_append (xs : List Char) :
    ∀ (b : Bool) (ys : List Char),
      squeezeWs b (xs ++ ys) = squeezeWs b xs ++ squeezeWs (endWsState b xs) ys := by
  induction xs with
  | nil => intro b ys; rfl
  | cons c cs ih =>
    intro b ys
    by_cases hc : isPyWs c
    · cases b <;> simp [squeezeWs, hc, endWsState, ih]
    · simp [squeezeWs, hc, endWsState, ih]

theorem squeezeWs_of_no_ws (cs : List Char) :
    ∀ b, (∀ c ∈ cs, isPyWs c = false) → squeezeWs b cs = cs := by
  induction cs with
  | nil => intro b _; rfl
  | cons c rest ih =>
    intro b h
    have hc := h c (List.mem_cons_self c rest)
    simp [squeezeWs, hc, ih false (fun x hx => h x (List.mem_cons_of_mem c hx))]

theorem pyStripChars_wrapped (a : Char) (mid : List Char) (z : Char)
    (ha : isPyWs a = false) (hz : isPyWs z = false) :
    pyStripChars ((a :: mid) ++ [z]) = (a :: mid) ++ [z] := by
  unfold pyStripChars
  have h1 : List.dropWhile isPyWs ((a :: mid) ++ [z]) = (a :: mid) ++ [z] := by
    simp [List.dropWhile, ha]
  rw [h1]
  have h2 : ((a :: mid) ++ [z]).reverse = (z :: mid.reverse) ++ [a] := by
    simp
  rw [h2]
  have h3 : List.dropWhile isPyWs ((z :: mid.reverse) ++ [a]) =
      (z :: mid.reverse) ++ [a] := by
    simp [List.dropWhile, hz]
  rw [h3, ← h2, List.reverse_reverse]

theorem collapse_body (mid : List Char) :
    collapseWsChars ("<body>".data ++ mid ++ "</body>".data) =
      "<body>".data ++ squeezeWs false mid ++ "</body>".data := by
  unfold collapseWsChars
  rw [List.append_assoc, squeezeWs_append,
    show squeezeWs false "<body>".data = "<body>".data from by decide,
    show endWsState false "<body>".data = false from rfl,
    squeezeWs_append, squeezeWs_of_no_ws "</body>".data _ (by decide)]
  have hshape : "<body>".data ++ (squeezeWs false mid ++ "</body>".data) =
      ('<' :: ("body>".data ++ squeezeWs false mid ++ "</body".data)) ++ ['>'] := by
    show ('<' :: "body>".data) ++ (squeezeWs false mid ++ ("</body".data ++ ['>'])) = _
    simp
  rw [hshape, pyStripChars_wrapped '<' _ '>' (by decide) (by decide), ← hshape,
    ← List.append_assoc]

/-- C9: whenever `clean_html` returns a string other than `""` and
`"None"`, that string starts with `<body>` and ends with `</body>`: the
kept content is wrapped in a `body` tag even though `body` is not in the
allow-list. -/
theorem C9_output_wrapped_in_body (c : Option String)
    (h1 : clean_html c ≠ "") (h2 : clean_html c ≠ "None") :
    "<body>".data <+: (clean_html c).data ∧
    "</body>".data <:+ (clean_html c).data := by
  match c with
  | none => exact absurd rfl h1
  | some s =>
    by_cases hs : s = ""
    · exact absurd (by simp [clean_html, hs]) h1
    · have hcc : clean_html (some s) =
          cleanCore (parseHtml (stripScriptStyle s.data)) := by
        simp [clean_html, hs]
      by_cases hcon : hasContentNodes (processNodes (startNodes
          (parseHtml (stripScriptStyle s.data)))) = true
      · have hdata : (clean_html (some s)).data =
            ("<body>".data ++ squeezeWs false (serializeNodes (pruneNodes
              (processNodes (startNodes (parseHtml (stripScriptStyle s.data))))))) ++
              "</body>".data := by
          rw [hcc]
          simp only [cleanCore]
          rw [if_pos hcon]
          show (String.mk (collapseWsChars _)).data = _
          rw [collapse_body]
        constructor
        · rw [hdata, List.append_assoc]
          exact List.prefix_append _ _
        · rw [hdata]
          exact List.suffix_append _ _
      · refine absurd ?_ h2
        rw [hcc]
        simp only [cleanCore]
        rw [if_neg hcon]

/-- C9 witness: the sanitized form of `<p>ok</p>` is neither empty nor
`None`, and is wrapped in a `body` tag. -/
theorem C9_output_wrapped_in_body_witness :
    "<body>".data <+: (clean_html (some "<p>ok</p>")).data ∧
    "</body>".data <:+ (clean_html (some "<p>ok</p>")).data :=
  C9_output_wrapped_in_body (some "<p>ok</p>") (by decide) (by decide)

end MindStream

namespace MindStream

/-! ## Lexer fuel accounting

Every lexer step consumes at least one character; these bounds let any
fuel at least the input's length be exchanged for any other. -/

theorem stripPre_length_le (p : List Char) :
    ∀ cs r, stripPre p cs = some r → r.length ≤ cs.length := by
  induction p with
  | nil =>
    intro cs r h
    simp only [stripPre, Option.some.injEq] at h
    simp [h]
  | cons a ps ih =>
    intro cs r h
    cases cs with
    | nil => simp [stripPre] at h
    | cons c cs' =>
      simp only [stripPre] at h
      split at h
      · exact Nat.le_succ_of_le (ih cs' r h)
      · exact absurd h (by simp)

theorem stripPre_cons_length_lt (a : Char) (ps : List Char) :
    ∀ cs r, stripPre (a :: ps) cs = some r → r.length < cs.length := by
  intro cs r h
  cases cs with
  | nil => simp [stripPre] at h
  | cons c cs' =>
    simp only [stripPre] at h
    split at h
    · exact Nat.lt_succ_of_le (stripPre_length_le ps cs' r h)
    · exact absurd h (by simp)

theorem matchCI_length_le (p : List Char) :
    ∀ cs r, matchCI p cs = some r → r.length ≤ cs.length := by
  induction p with
  | nil =>
    intro cs r h
    simp only [matchCI, Option.some.injEq] at h
    simp [h]
  | cons a ps ih =>
    intro cs r h
    cases cs with
    | nil => simp [matchCI] at h
    | cons c cs' =>
      simp only [matchCI] at h
      split at h
      · exact Nat.le_succ_of_le (ih cs' r h)
      · exact absurd h (by simp)

theorem consumeToGt_length_lt :
    ∀ cs r, consumeToGt cs = some r → r.length < cs.length := by
  intro cs
  induction cs with
  | nil => intro r h; simp [consumeToGt] at h
  | cons c cs' ih =>
    intro r h
    simp only [consumeToGt] at h
    split at h
    · cases h; simp
    · exact Nat.lt_succ_of_lt (ih r h)

theorem skipToChar_length_lt (q : Char) :
    ∀ cs r, skipToChar q cs = some r → r.length < cs.length := by
  intro cs
  induction cs with
  | nil => intro r h; simp [skipToChar] at h
  | cons c cs' ih =>
    intro r h
    simp only [skipToChar] at h
    split at h
    · cases h; simp
    · exact Nat.lt_succ_of_lt (ih r h)

theorem findCloser_length_le (pat : List Char) :
    ∀ cs r, findCloser pat cs = some r → r.length ≤ cs.length := by
  intro cs
  induction cs with
  | nil => intro r h; simp [findCloser] at h
  | cons c cs' ih =>
    intro r h
    simp only [findCloser] at h
    split at h
    · rename_i heq
      cases h
      exact matchCI_length_le pat _ _ heq
    · exact Nat.le_succ_of_le (ih r h)

theorem parseEntity_length_lt (cs : List Char) (ch : Char) (r : List Char)
    (h : parseEntity cs = some (ch, r)) : r.length < cs.length := by
  unfold parseEntity at h
  repeat
    split at h
    next heq =>
      cases h
      exact stripPre_cons_length_lt _ _ _ _ heq
  exact absurd h (by simp)

theorem scanComment_length_le :
    ∀ cs : List Char, (scanComment cs).2.length ≤ cs.length := by
  intro cs
  induction cs using scanComment.induct with
  | case1 => simp [scanComment]
  | case2 cs => simp [scanComment]; omega
  | case3 c cs hne t r heq ih =>
    have h3 : scanComment (c :: cs) = (c :: t, r) := by
      rw [scanComment.eq_def]
      split
      · rename_i hx; cases hx
      · rename_i cs2 hx
        injection hx with h1 h2
        exact absurd h2 (fun he => hne cs2 h1 he)
      · rename_i c' cs' hx
        injection hx with h1 h2
        subst h1; subst h2
        rw [heq]
    rw [h3]
    rw [heq] at ih
    exact Nat.le_succ_of_le ih

theorem scanDecl_length_le :
    ∀ cs : List Char, (scanDecl cs).2.length ≤ cs.length := by
  intro cs
  induction cs with
  | nil => simp [scanDecl]
  | cons c cs' ih =>
    rw [scanDecl.eq_def]
    split
    · rename_i hx; cases hx
    · rename_i hx
      injection hx with h1 h2
      subst h2; simp
    · rename_i c' cs2 hx
      injection hx with h1 h2
      subst h1; subst h2
      simp only []
      exact Nat.le_succ_of_le ih

theorem lexAttrs_length_lt (q : Option Char) (cs : List Char) :
    ∀ sc r, lexAttrs q cs = some (sc, r) → r.length < cs.length := by
  induction q, cs using lexAttrs.induct with
  | case1 x => intro sc r h; cases x <;> simp [lexAttrs] at h
  | case2 c cs ih =>
    intro sc r h
    simp only [lexAttrs, if_pos rfl] at h
    exact Nat.lt_succ_of_lt (ih sc r h)
  | case3 q c cs hne ih =>
    intro sc r h
    simp only [lexAttrs, if_neg hne] at h
    exact Nat.lt_succ_of_lt (ih sc r h)
  | case4 cs => intro sc r h; cases h; simp
  | case5 cs =>
    intro sc r h
    cases h
    simp only [List.length_cons]
    omega
  | case6 cs ih =>
    intro sc r h
    simp only [lexAttrs] at h
    exact Nat.lt_succ_of_lt (ih sc r h)
  | case7 cs ih =>
    intro sc r h
    simp only [lexAttrs] at h
    exact Nat.lt_succ_of_lt (ih sc r h)
  | case8 head cs h1 h2 h3 h4 ih =>
    intro sc r h
    have hstep : lexAttrs none (head :: cs) = lexAttrs none cs := by
      rw [lexAttrs.eq_def]
      split <;> simp_all
    rw [hstep] at h
    exact Nat.lt_succ_of_lt (ih sc r h)

end MindStream

namespace MindStream

theorem dropWhile_length_le {α : Type} (p : α → Bool) :
    ∀ l : List α, (l.dropWhile p).length ≤ l.length := by
  intro l
  induction l with
  | nil => simp
  | cons c cs ih =>
    rw [List.dropWhile_cons]
    by_cases hc : p c
    · simp only [hc, if_true]
      exact Nat.le_succ_of_le ih
    · simp [hc]

theorem lexEnd_length_lt (cs nm r) (h : lexEnd cs = some (nm, r)) :
    r.length < cs.length := by
  match cs with
  | [] => exact absurd h (by simp [lexEnd])
  | c :: rest =>
    simp only [lexEnd] at h
    by_cases ha : c.isAlpha
    · rw [if_pos ha] at h
      cases hsk : skipToChar '>' ((c :: rest).dropWhile isTagNameChar) with
      | none => rw [hsk] at h; exact absurd h (by simp)
      | some r' =>
        rw [hsk] at h
        injection h with h1
        injection h1 with h1 h2
        subst h2
        exact Nat.lt_of_lt_of_le (skipToChar_length_lt _ _ _ hsk)
          (dropWhile_length_le _ _)
    · rw [if_neg ha] at h
      exact absurd h (by simp)

theorem lexOpen_length_lt (cs nm sc r) (h : lexOpen cs = some (nm, sc, r)) :
    r.length < cs.length := by
  match cs with
  | [] => exact absurd h (by simp [lexOpen])
  | c :: rest =>
    simp only [lexOpen] at h
    by_cases ha : c.isAlpha
    · rw [if_pos ha] at h
      cases hat : lexAttrs none ((c :: rest).dropWhile isTagNameChar) with
      | none => rw [hat] at h; exact absurd h (by simp)
      | some pr =>
        rw [hat] at h
        injection h with h1
        injection h1 with h1 h2
        injection h2 with h2 h3
        subst h3
        exact Nat.lt_of_lt_of_le (lexAttrs_length_lt none _ _ _ hat)
          (dropWhile_length_le _ _)
    · rw [if_neg ha] at h
      exact absurd h (by simp)

theorem rawClose_length_lt (name cs r) (h : rawClose name cs = some r) :
    r.length < cs.length := by
  unfold rawClose at h
  split at h
  · rename_i cs2
    cases hm : matchCI name (cs2.dropWhile isPyWs) with
    | none => rw [hm] at h; exact absurd h (by simp)
    | some cs3 =>
      rw [hm] at h
      have h1 := skipToChar_length_lt '>' cs3 r h
      have h2 := matchCI_length_le name _ _ hm
      have h3 := dropWhile_length_le isPyWs cs2
      simp only [List.length_cons]
      omega
  · exact absurd h (by simp)

theorem rawScan_length_lt (name : List Char) :
    ∀ cs raw r, rawScan name cs = (raw, some r) → r.length < cs.length := by
  intro cs
  induction cs with
  | nil => intro raw r h; simp [rawScan] at h
  | cons c cs' ih =>
    intro raw r h
    rw [rawScan.eq_def] at h
    simp only [] at h
    split at h
    · rename_i rest hrc
      injection h with h1 h2
      injection h2 with h2
      subst h2
      exact rawClose_length_lt name _ _ hrc
    · injection h with h1 h2
      exact Nat.lt_succ_of_lt (ih (rawScan name cs').1 r (by rw [← h2]))

/-! Conditional one-step equations for the lexer. -/

theorem lexHtml_comment_eq (f : Nat) (cs3 : List Char) :
    lexHtml (f + 1) ('<' :: '!' :: '-' :: '-' :: cs3) =
      Tok.commentTok (scanComment cs3).1 :: lexHtml f (scanComment cs3).2 := by
  simp [lexHtml]

theorem lexHtml_decl_eq (f : Nat) (cs2 : List Char)
    (hne : ∀ cs3, cs2 = '-' :: '-' :: cs3 → False) :
    lexHtml (f + 1) ('<' :: '!' :: cs2) =
      Tok.commentTok (scanDecl cs2).1 :: lexHtml f (scanDecl cs2).2 := by
  rw [lexHtml.eq_def]
  split <;> simp_all
  all_goals try tauto
  all_goals (subst_vars; split <;> simp_all)

theorem lexHtml_close_eq (f : Nat) (cs2 nm r : List Char)
    (h : lexEnd cs2 = some (nm, r)) :
    lexHtml (f + 1) ('<' :: '/' :: cs2) = Tok.closeTag nm :: lexHtml f r := by
  simp [lexHtml, h]

theorem lexHtml_close_none_eq (f : Nat) (cs2 : List Char)
    (h : lexEnd cs2 = none) :
    lexHtml (f + 1) ('<' :: '/' :: cs2) = Tok.text ['<'] :: lexHtml f ('/' :: cs2) := by
  simp [lexHtml, h]

theorem lexHtml_open_plain_eq (f : Nat) (cs nm : List Char) (r : List Char)
    (hne1 : ∀ cs2, cs = '!' :: cs2 → False) (hne2 : ∀ cs2, cs = '/' :: cs2 → False)
    (hopen : lexOpen cs = some (nm, false, r)) (hraw : nm ∉ rawTextTags) :
    lexHtml (f + 1) ('<' :: cs) = Tok.openTag nm false :: lexHtml f r := by
  rw [lexHtml.eq_def]
  split <;> simp_all
  all_goals try tauto
  all_goals (subst_vars; split <;> simp_all)

theorem lexHtml_open_true_eq (f : Nat) (cs nm : List Char) (r : List Char)
    (hne1 : ∀ cs2, cs = '!' :: cs2 → False) (hne2 : ∀ cs2, cs = '/' :: cs2 → False)
    (hopen : lexOpen cs = some (nm, true, r)) :
    lexHtml (f + 1) ('<' :: cs) = Tok.openTag nm true :: lexHtml f r := by
  rw [lexHtml.eq_def]
  split <;> simp_all
  all_goals try tauto
  all_goals (subst_vars; split <;> simp_all)

theorem lexHtml_open_raw_some_eq (f : Nat) (cs nm : List Char) (r raw r2 : List Char)
    (hne1 : ∀ cs2, cs = '!' :: cs2 → False) (hne2 : ∀ cs2, cs = '/' :: cs2 → False)
    (hopen : lexOpen cs = some (nm, false, r)) (hraw : nm ∈ rawTextTags)
    (hscan : rawScan nm r = (raw, some r2)) :
    lexHtml (f + 1) ('<' :: cs) =
      Tok.openTag nm false :: Tok.text raw :: Tok.closeTag nm :: lexHtml f r2 := by
  rw [lexHtml.eq_def]
  split <;> simp_all
  all_goals try tauto
  all_goals (subst_vars; split <;> simp_all)

theorem lexHtml_open_raw_none_eq (f : Nat) (cs nm : List Char) (r raw : List Char)
    (hne1 : ∀ cs2, cs = '!' :: cs2 → False) (hne2 : ∀ cs2, cs = '/' :: cs2 → False)
    (hopen : lexOpen cs = some (nm, false, r)) (hraw : nm ∈ rawTextTags)
    (hscan : rawScan nm r = (raw, none)) :
    lexHtml (f + 1) ('<' :: cs) = [Tok.openTag nm false, Tok.text raw] := by
  rw [lexHtml.eq_def]
  split <;> simp_all
  all_goals try tauto
  all_goals (subst_vars; split <;> simp_all)

theorem lexHtml_open_none_eq (f : Nat) (cs : List Char)
    (hne1 : ∀ cs2, cs = '!' :: cs2 → False) (hne2 : ∀ cs2, cs = '/' :: cs2 → False)
    (hopen : lexOpen cs = none) :
    lexHtml (f + 1) ('<' :: cs) = Tok.text ['<'] :: lexHtml f cs := by
  rw [lexHtml.eq_def]
  split <;> simp_all
  all_goals try tauto
  all_goals (subst_vars; split <;> simp_all)

theorem lexHtml_entity_eq (f : Nat) (cs : List Char) (ch : Char) (r : List Char)
    (h : parseEntity cs = some (ch, r)) :
    lexHtml (f + 1) ('&' :: cs) = Tok.text [ch] :: lexHtml f r := by
  simp [lexHtml, h]

theorem lexHtml_entity_none_eq (f : Nat) (cs : List Char)
    (h : parseEntity cs = none) :
    lexHtml (f + 1) ('&' :: cs) = Tok.text ['&'] :: lexHtml f cs := by
  simp [lexHtml, h]

theorem lexHtml_char_eq (f : Nat) (c : Char) (cs : List Char)
    (h1 : c ≠ '<') (h2 : c ≠ '&') :
    lexHtml (f + 1) (c :: cs) = Tok.text [c] :: lexHtml f cs := by
  rw [lexHtml.eq_def]
  split <;> simp_all
  all_goals try tauto
  all_goals (subst_vars; split <;> simp_all)

end MindStream

namespace MindStream

theorem lexHtml_fuel_irrelevant :
    ∀ (fuel : Nat) (cs : List Char), cs.length ≤ fuel →
      ∀ f2, cs.length ≤ f2 → lexHtml fuel cs = lexHtml f2 cs := by
  intro fuel cs
  induction fuel, cs using lexHtml.induct with
  | case1 x =>
    intro hlen f2 hlen2
    have hx : x = [] := by
      cases x with
      | nil => rfl
      | cons a l => simp at hlen
    subst hx
    cases f2 <;> rfl
  | case2 n =>
    intro _ f2 _
    cases f2 <;> rfl
  | case3 fuel cs3 t r heq ih =>
    intro hlen f2 hlen2
    have hr : r.length ≤ cs3.length := by
      have h := scanComment_length_le cs3
      rw [heq] at h
      exact h
    simp only [List.length_cons] at hlen hlen2
    obtain ⟨f2', rfl⟩ : ∃ k, f2 = k + 1 := ⟨f2 - 1, by omega⟩
    rw [lexHtml_comment_eq, lexHtml_comment_eq, heq]
    exact congrArg _ (ih (by omega) f2' (by omega))
  | case4 fuel cs2 t r heq hne ih =>
    intro hlen f2 hlen2
    have hr : r.length ≤ cs2.length := by
      have h := scanDecl_length_le cs2
      rw [heq] at h
      exact h
    simp only [List.length_cons] at hlen hlen2
    obtain ⟨f2', rfl⟩ : ∃ k, f2 = k + 1 := ⟨f2 - 1, by omega⟩
    rw [lexHtml_decl_eq _ _ hne, lexHtml_decl_eq _ _ hne, heq]
    exact congrArg _ (ih (by omega) f2' (by omega))
  | case5 fuel cs2 nm r heq ih =>
    intro hlen f2 hlen2
    have hr := lexEnd_length_lt cs2 nm r heq
    simp only [List.length_cons] at hlen hlen2
    obtain ⟨f2', rfl⟩ : ∃ k, f2 = k + 1 := ⟨f2 - 1, by omega⟩
    rw [lexHtml_close_eq _ _ _ _ heq, lexHtml_close_eq _ _ _ _ heq]
    exact congrArg _ (ih (by omega) f2' (by omega))
  | case6 fuel cs2 heq ih =>
    intro hlen f2 hlen2
    simp only [List.length_cons] at hlen hlen2
    obtain ⟨f2', rfl⟩ : ∃ k, f2 = k + 1 := ⟨f2 - 1, by omega⟩
    rw [lexHtml_close_none_eq _ _ heq, lexHtml_close_none_eq _ _ heq]
    refine congrArg _ (ih ?_ f2' ?_) <;> simp only [List.length_cons] <;> omega
  | case7 fuel cs nm r hne1 hne2 hopen ih =>
    intro hlen f2 hlen2
    have hr := lexOpen_length_lt cs nm true r hopen
    simp only [List.length_cons] at hlen hlen2
    obtain ⟨f2', rfl⟩ : ∃ k, f2 = k + 1 := ⟨f2 - 1, by omega⟩
    rw [lexHtml_open_true_eq _ _ _ _ hne1 hne2 hopen,
      lexHtml_open_true_eq _ _ _ _ hne1 hne2 hopen]
    exact congrArg _ (ih (by omega) f2' (by omega))
  | case8 fuel cs nm sc r hopen hsc hraw raw r2 hscan hne1 hne2 ih =>
    intro hlen f2 hlen2
    have hscf : sc = false := by
      cases sc
      · rfl
      · exact absurd rfl hsc
    subst hscf
    have hr := lexOpen_length_lt cs nm false r hopen
    have hr2 := rawScan_length_lt nm r raw r2 hscan
    simp only [List.length_cons] at hlen hlen2
    obtain ⟨f2', rfl⟩ : ∃ k, f2 = k + 1 := ⟨f2 - 1, by omega⟩
    rw [lexHtml_open_raw_some_eq _ _ _ _ _ _ hne1 hne2 hopen hraw hscan,
      lexHtml_open_raw_some_eq _ _ _ _ _ _ hne1 hne2 hopen hraw hscan]
    exact congrArg _ (congrArg _ (congrArg _ (ih (by omega) f2' (by omega))))
  | case9 fuel cs nm sc r hopen hsc hraw raw hscan hne1 hne2 =>
    intro hlen f2 hlen2
    have hscf : sc = false := by
      cases sc
      · rfl
      · exact absurd rfl hsc
    subst hscf
    simp only [List.length_cons] at hlen hlen2
    obtain ⟨f2', rfl⟩ : ∃ k, f2 = k + 1 := ⟨f2 - 1, by omega⟩
    rw [lexHtml_open_raw_none_eq _ _ _ _ _ hne1 hne2 hopen hraw hscan,
      lexHtml_open_raw_none_eq _ _ _ _ _ hne1 hne2 hopen hraw hscan]
  | case10 fuel cs nm sc r hopen hsc hraw hne1 hne2 ih =>
    intro hlen f2 hlen2
    have hscf : sc = false := by
      cases sc
      · rfl
      · exact absurd rfl hsc
    subst hscf
    have hr := lexOpen_length_lt cs nm false r hopen
    simp only [List.length_cons] at hlen hlen2
    obtain ⟨f2', rfl⟩ : ∃ k, f2 = k + 1 := ⟨f2 - 1, by omega⟩
    rw [lexHtml_open_plain_eq _ _ _ _ hne1 hne2 hopen hraw,
      lexHtml_open_plain_eq _ _ _ _ hne1 hne2 hopen hraw]
    exact congrArg _ (ih (by omega) f2' (by omega))
  | case11 fuel cs hopen hne1 hne2 ih =>
    intro hlen f2 hlen2
    simp only [List.length_cons] at hlen hlen2
    obtain ⟨f2', rfl⟩ : ∃ k, f2 = k + 1 := ⟨f2 - 1, by omega⟩
    rw [lexHtml_open_none_eq _ _ hne1 hne2 hopen, lexHtml_open_none_eq _ _ hne1 hne2 hopen]
    exact congrArg _ (ih (by omega) f2' (by omega))
  | case12 fuel cs ch r heq ih =>
    intro hlen f2 hlen2
    have hr := parseEntity_length_lt cs ch r heq
    simp only [List.length_cons] at hlen hlen2
    obtain ⟨f2', rfl⟩ : ∃ k, f2 = k + 1 := ⟨f2 - 1, by omega⟩
    rw [lexHtml_entity_eq _ _ _ _ heq, lexHtml_entity_eq _ _ _ _ heq]
    exact congrArg _ (ih (by omega) f2' (by omega))
  | case13 fuel cs heq ih =>
    intro hlen f2 hlen2
    simp only [List.length_cons] at hlen hlen2
    obtain ⟨f2', rfl⟩ : ∃ k, f2 = k + 1 := ⟨f2 - 1, by omega⟩
    rw [lexHtml_entity_none_eq _ _ heq, lexHtml_entity_none_eq _ _ heq]
    exact congrArg _ (ih (by omega) f2' (by omega))
  | case14 fuel c cs h1 h2 ih =>
    intro hlen f2 hlen2
    simp only [List.length_cons] at hlen hlen2
    obtain ⟨f2', rfl⟩ : ∃ k, f2 = k + 1 := ⟨f2 - 1, by omega⟩
    rw [lexHtml_char_eq _ _ _ h1 h2, lexHtml_char_eq _ _ _ h1 h2]
    exact congrArg _ (ih (by omega) f2' (by omega))

end MindStream

namespace MindStream

theorem goodTagName_spec (c : Char) (rest : List Char)
    (h : goodTagName (c :: rest) = true) :
    c.isAlpha = true ∧ (∀ ch ∈ c :: rest, isTagNameChar ch = true ∧ ch ≠ '<') ∧
    (c :: rest).map Char.toLower = c :: rest ∧
    ¬((c :: rest) ∈ rawTextTags) ∧ ¬((c :: rest) ∈ voidTags) ∧ c.toLower ≠ 's' ∧
    (∀ ch ∈ c :: rest, isPyWs ch = false) := by
  simp only [goodTagName, Bool.and_eq_true, List.all_eq_true, Bool.not_eq_true',
    beq_iff_eq, decide_eq_true_eq, ne_eq] at h
  obtain ⟨⟨⟨⟨⟨⟨h1, h2⟩, h3⟩, h4⟩, h5⟩, h6⟩, h7⟩ := h
  refine ⟨h1, ?_, h3, ?_, ?_, h6, h7⟩
  · intro ch hch
    have := h2 ch hch
    simp only [Bool.and_eq_true, decide_eq_true_eq] at this
    exact this
  · intro hmem
    simp only [List.contains, List.elem_eq_mem, decide_eq_false_iff_not] at h4
    exact h4 hmem
  · intro hmem
    simp only [List.contains, List.elem_eq_mem, decide_eq_false_iff_not] at h5
    exact h5 hmem

theorem takeWhile_append_stop {p : Char → Bool} :
    ∀ (xs : List Char) (y : Char) (ys : List Char),
      (∀ c ∈ xs, p c = true) → p y = false →
      (xs ++ y :: ys).takeWhile p = xs ∧ (xs ++ y :: ys).dropWhile p = y :: ys := by
  intro xs
  induction xs with
  | nil =>
    intro y ys _ hy
    simp [List.takeWhile_cons, List.dropWhile_cons, hy]
  | cons x xs' ih =>
    intro y ys hall hy
    have hx : p x = true := hall x (List.mem_cons_self x xs')
    have hrest := ih y ys (fun c hc => hall c (List.mem_cons_of_mem x hc)) hy
    simp only [List.cons_append, List.takeWhile_cons, List.dropWhile_cons, hx,
      if_true]
    exact ⟨by rw [hrest.1], by rw [hrest.2]⟩

theorem lexOpen_serialized (nm : List Char) (h : goodTagName nm = true)
    (rest : List Char) :
    lexOpen (nm ++ '>' :: rest) = some (nm, false, rest) := by
  match nm with
  | [] => exact absurd h (by simp [goodTagName])
  | c :: nm' =>
    obtain ⟨h1, h2, h3, _, _, _⟩ := goodTagName_spec c nm' h
    have hgt : isTagNameChar '>' = false := by decide
    have hsplit := takeWhile_append_stop (c :: nm') '>' rest
      (fun ch hch => (h2 ch hch).1) hgt
    rw [show (c :: nm') ++ '>' :: rest = c :: (nm' ++ '>' :: rest) from rfl]
    simp only [lexOpen, h1, if_true]
    rw [show c :: (nm' ++ '>' :: rest) = (c :: nm') ++ '>' :: rest from rfl,
      hsplit.1, hsplit.2]
    simp only [lexAttrs, h3]

theorem lexEnd_serialized (nm : List Char) (h : goodTagName nm = true)
    (rest : List Char) :
    lexEnd (nm ++ '>' :: rest) = some (nm, rest) := by
  match nm with
  | [] => exact absurd h (by simp [goodTagName])
  | c :: nm' =>
    obtain ⟨h1, h2, h3, _, _, _⟩ := goodTagName_spec c nm' h
    have hgt : isTagNameChar '>' = false := by decide
    have hsplit := takeWhile_append_stop (c :: nm') '>' rest
      (fun ch hch => (h2 ch hch).1) hgt
    rw [show (c :: nm') ++ '>' :: rest = c :: (nm' ++ '>' :: rest) from rfl]
    simp only [lexEnd, h1, if_true]
    rw [show c :: (nm' ++ '>' :: rest) = (c :: nm') ++ '>' :: rest from rfl,
      hsplit.1, hsplit.2]
    simp [skipToChar, h3]

theorem parseEntity_amp (X : List Char) :
    parseEntity ("amp;".data ++ X) = some ('&', X) := rfl

theorem parseEntity_lt (X : List Char) :
    parseEntity ("lt;".data ++ X) = some ('<', X) := rfl

theorem parseEntity_gt (X : List Char) :
    parseEntity ("gt;".data ++ X) = some ('>', X) := rfl

theorem lex_esc (s : List Char) :
    ∀ (tail : List Char) (fuel : Nat),
      (escapeHtml s ++ tail).length ≤ fuel →
      lexHtml fuel (escapeHtml s ++ tail) =
        s.map (fun c => Tok.text [c]) ++ lexHtml (tail.length + 1) tail := by
  induction s with
  | nil =>
    intro tail fuel h
    simp only [escapeHtml, List.flatMap_nil, List.nil_append, List.map_nil] at *
    exact lexHtml_fuel_irrelevant fuel tail h _ (by omega)
  | cons c s' ih =>
    intro tail fuel h
    have hesc : escapeHtml (c :: s') = escChar c ++ escapeHtml s' := by
      simp [escapeHtml]
    rw [hesc, List.append_assoc] at h ⊢
    by_cases hamp : c = '&'
    · subst hamp
      rw [show escChar '&' ++ (escapeHtml s' ++ tail) =
          '&' :: 'a' :: 'm' :: 'p' :: ';' :: (escapeHtml s' ++ tail) from rfl] at h ⊢
      simp only [List.length_cons] at h
      obtain ⟨f, rfl⟩ : ∃ k, fuel = k + 1 := ⟨fuel - 1, by omega⟩
      rw [lexHtml_entity_eq f ('a' :: 'm' :: 'p' :: ';' :: (escapeHtml s' ++ tail))
        '&' (escapeHtml s' ++ tail) rfl]
      rw [ih tail f (by omega)]
      simp
    · by_cases hlt : c = '<'
      · subst hlt
        rw [show escChar '<' ++ (escapeHtml s' ++ tail) =
            '&' :: 'l' :: 't' :: ';' :: (escapeHtml s' ++ tail) from rfl] at h ⊢
        simp only [List.length_cons] at h
        obtain ⟨f, rfl⟩ : ∃ k, fuel = k + 1 := ⟨fuel - 1, by omega⟩
        rw [lexHtml_entity_eq f ('l' :: 't' :: ';' :: (escapeHtml s' ++ tail))
          '<' (escapeHtml s' ++ tail) rfl]
        rw [ih tail f (by omega)]
        simp
      · by_cases hgt : c = '>'
        · subst hgt
          rw [show escChar '>' ++ (escapeHtml s' ++ tail) =
              '&' :: 'g' :: 't' :: ';' :: (escapeHtml s' ++ tail) from rfl] at h ⊢
          simp only [List.length_cons] at h
          obtain ⟨f, rfl⟩ : ∃ k, fuel = k + 1 := ⟨fuel - 1, by omega⟩
          rw [lexHtml_entity_eq f ('g' :: 't' :: ';' :: (escapeHtml s' ++ tail))
            '>' (escapeHtml s' ++ tail) rfl]
          rw [ih tail f (by omega)]
          simp
        · have hch : escChar c = [c] := by
            simp [escChar, hamp, hlt, hgt]
          rw [hch] at h ⊢
          simp only [List.cons_append, List.length_cons, List.singleton_append,
            List.nil_append] at h ⊢
          obtain ⟨f, rfl⟩ : ∃ k, fuel = k + 1 := ⟨fuel - 1, by omega⟩
          rw [lexHtml_char_eq _ _ _ hlt hamp]
          rw [ih tail f (by omega)]
          simp

end MindStream

namespace MindStream

theorem cleanForest_cons (n : HNode) (rest : List HNode)
    (h : cleanForest (n :: rest) = true) :
    cleanNode n = true ∧ cleanForest rest = true ∧
    (∀ m ms', rest = m :: ms' → (isTextNode n && isTextNode m) = false) := by
  cases rest with
  | nil =>
    simp only [cleanForest] at h
    exact ⟨h, rfl, fun m ms' hh => by cases hh⟩
  | cons m ms' =>
    simp only [cleanForest, Bool.and_eq_true, Bool.not_eq_true'] at h
    exact ⟨h.1.1, h.2, fun m2 ms2 hh => by cases hh; exact h.1.2⟩

end MindStream

namespace MindStream

theorem lex_ser (k : Nat) :
    ∀ (ms : List HNode), sizeOf ms ≤ k → cleanForest ms = true →
      ∀ (tail : List Char) (fuel : Nat),
        (serializeNodes ms ++ tail).length ≤ fuel →
        lexHtml fuel (serializeNodes ms ++ tail) =
          tokensOf ms ++ lexHtml (tail.length + 1) tail := by
  induction k with
  | zero =>
    intro ms hsz
    exfalso
    have h1 : 1 ≤ sizeOf ms := by cases ms <;> simp_arith
    omega
  | succ k ih =>
    intro ms hsz hc tail fuel hf
    match ms with
    | [] =>
      simp only [serializeNodes, List.nil_append, tokensOf] at hf ⊢
      exact lexHtml_fuel_irrelevant fuel tail hf _ (by omega)
    | HNode.text s :: rest =>
      have hszr : sizeOf rest ≤ k := by
        simp only [List.cons.sizeOf_spec, HNode.text.sizeOf_spec] at hsz
        omega
      have hcr : cleanForest rest = true := (cleanForest_cons _ _ hc).2.1
      have hser : serializeNodes (HNode.text s :: rest) ++ tail =
          escapeHtml s ++ (serializeNodes rest ++ tail) := by
        simp [serializeNodes, serializeNode, List.append_assoc]
      rw [hser] at hf ⊢
      rw [lex_esc s (serializeNodes rest ++ tail) fuel hf]
      rw [ih rest hszr hcr tail ((serializeNodes rest ++ tail).length + 1) (by omega)]
      simp [tokensOf, tokensOfNode, List.append_assoc]
    | HNode.comment s :: rest =>
      have hcn := (cleanForest_cons _ _ hc).1
      simp [cleanNode] at hcn
    | HNode.tag n cs :: rest =>
      have h1 := cleanForest_cons _ _ hc
      have hcn := h1.1
      simp only [cleanNode, Bool.and_eq_true] at hcn
      have hgood : goodTagName n = true := hcn.1
      have hccs : cleanForest cs = true := hcn.2
      have hcr : cleanForest rest = true := h1.2.1
      have hszcs : sizeOf cs ≤ k := by
        simp only [List.cons.sizeOf_spec, HNode.tag.sizeOf_spec] at hsz
        omega
      have hszr : sizeOf rest ≤ k := by
        simp only [List.cons.sizeOf_spec, HNode.tag.sizeOf_spec] at hsz
        omega
      cases n with
      | nil => exact absurd hgood (by simp [goodTagName])
      | cons c n' =>
        obtain ⟨halpha, hchars, hlower, hraw, hvoid, hs⟩ := goodTagName_spec c n' hgood
        have hser : serializeNodes (HNode.tag (c :: n') cs :: rest) ++ tail =
            '<' :: ((c :: n') ++ '>' :: (serializeNodes cs ++
              ('<' :: '/' :: ((c :: n') ++ '>' :: (serializeNodes rest ++ tail))))) := by
          simp [serializeNodes, serializeNode, List.append_assoc]
        rw [hser] at hf ⊢
        obtain ⟨f, rfl⟩ : ∃ j, fuel = j + 1 :=
          ⟨fuel - 1, by simp only [List.length_cons] at hf; omega⟩
        have hne1 : ∀ cs2, (c :: n') ++ '>' :: (serializeNodes cs ++
            ('<' :: '/' :: ((c :: n') ++ '>' :: (serializeNodes rest ++ tail)))) =
            '!' :: cs2 → False := by
          intro cs2 heq
          rw [List.cons_append] at heq
          injection heq with he1 he2
          rw [he1] at halpha
          exact absurd halpha (by decide)
        have hne2 : ∀ cs2, (c :: n') ++ '>' :: (serializeNodes cs ++
            ('<' :: '/' :: ((c :: n') ++ '>' :: (serializeNodes rest ++ tail)))) =
            '/' :: cs2 → False := by
          intro cs2 heq
          rw [List.cons_append] at heq
          injection heq with he1 he2
          rw [he1] at halpha
          exact absurd halpha (by decide)
        have hopen := lexOpen_serialized (c :: n') hgood (serializeNodes cs ++
          ('<' :: '/' :: ((c :: n') ++ '>' :: (serializeNodes rest ++ tail))))
        rw [lexHtml_open_plain_eq f _ (c :: n') _ hne1 hne2 hopen hraw]
        have hlenT1 : (serializeNodes cs ++
            ('<' :: '/' :: ((c :: n') ++ '>' :: (serializeNodes rest ++ tail)))).length ≤ f := by
          simp only [List.length_cons, List.length_append] at hf ⊢
          omega
        rw [ih cs hszcs hccs _ f hlenT1]
        have hclose : lexHtml (('<' :: '/' :: ((c :: n') ++ '>' ::
              (serializeNodes rest ++ tail))).length + 1)
            ('<' :: '/' :: ((c :: n') ++ '>' :: (serializeNodes rest ++ tail))) =
            Tok.closeTag (c :: n') ::
              lexHtml ('<' :: '/' :: ((c :: n') ++ '>' ::
                (serializeNodes rest ++ tail))).length
                (serializeNodes rest ++ tail) := by
          exact lexHtml_close_eq _ _ _ _ (lexEnd_serialized (c :: n') hgood _)
        rw [hclose]
        have hlenT2 : (serializeNodes rest ++ tail).length ≤
            ('<' :: '/' :: ((c :: n') ++ '>' :: (serializeNodes rest ++ tail))).length := by
          simp only [List.length_cons, List.length_append]
          omega
        rw [ih rest hszr hcr tail _ hlenT2]
        simp [tokensOf, tokensOfNode, List.append_assoc]

end MindStream

namespace MindStream

/-- The head of a forest is a text node. -/
def headIsText : List HNode → Bool
  | [] => false
  | n :: _ => isTextNode n

theorem lastIsText_concat (acc : List HNode) (n : HNode) :
    lastIsText (acc ++ [n]) = isTextNode n := by
  simp [lastIsText, List.getLast?_concat]

theorem pushChild_cons_cons (a b : HNode) (bs : List HNode) (n : HNode) :
    pushChild (a :: b :: bs) n = a :: pushChild (b :: bs) n := by
  rw [pushChild.eq_def]
  split <;> simp_all

theorem pushChild_not_text (acc : List HNode) (n : HNode)
    (hn : isTextNode n = false) : pushChild acc n = acc ++ [n] := by
  induction acc with
  | nil => rfl
  | cons a as ih =>
    cases as with
    | nil =>
      cases n with
      | text s => simp [isTextNode] at hn
      | tag nm cs => cases a <;> rfl
      | comment s => cases a <;> rfl
    | cons b bs =>
      rw [pushChild_cons_cons, ih]
      rfl

theorem pushChild_text_last_not (acc : List HNode) (s : List Char)
    (h : lastIsText acc = false) :
    pushChild acc (HNode.text s) = acc ++ [HNode.text s] := by
  induction acc with
  | nil => rfl
  | cons a as ih =>
    cases as with
    | nil =>
      cases a with
      | text t => simp [lastIsText, isTextNode] at h
      | tag nm cs => rfl
      | comment t => rfl
    | cons b bs =>
      have h2 : lastIsText (b :: bs) = false := by
        simpa [lastIsText, List.getLast?_cons_cons] using h
      rw [pushChild_cons_cons, ih h2]
      rfl

theorem pushChild_text_merge (acc : List HNode) (s t : List Char) :
    pushChild (acc ++ [HNode.text s]) (HNode.text t) =
      acc ++ [HNode.text (s ++ t)] := by
  induction acc with
  | nil => rfl
  | cons a as ih =>
    cases as with
    | nil =>
      rw [show ([a] ++ [HNode.text s]) = a :: HNode.text s :: [] from rfl,
        pushChild_cons_cons]
      rfl
    | cons b bs =>
      rw [show ((a :: b :: bs) ++ [HNode.text s]) =
        a :: b :: (bs ++ [HNode.text s]) from rfl, pushChild_cons_cons,
        show (b :: (bs ++ [HNode.text s])) = (b :: bs) ++ [HNode.text s] from rfl,
        ih]
      rfl

end MindStream

namespace MindStream

theorem build_text_cont (s2 : List Char) :
    ∀ (s1 : List Char) (ts : List Tok) (nm : List Char) (acc : List HNode)
      (rest : List Frame) (root : List HNode),
      buildNodes ((s2.map fun c => Tok.text [c]) ++ ts)
          ((nm, acc ++ [HNode.text s1]) :: rest) root =
        buildNodes ts ((nm, acc ++ [HNode.text (s1 ++ s2)]) :: rest) root := by
  induction s2 with
  | nil =>
    intro s1 ts nm acc rest root
    simp
  | cons c s2' ih =>
    intro s1 ts nm acc rest root
    simp only [List.map_cons, List.cons_append, buildNodes, attachNode,
      List.append_eq]
    rw [pushChild_text_merge, ih (s1 ++ [c])]
    simp [List.append_assoc]

theorem build_text_run (s : List Char) (hs : s ≠ []) (ts : List Tok)
    (nm : List Char) (acc : List HNode) (rest : List Frame) (root : List HNode)
    (hlast : lastIsText acc = false) :
    buildNodes ((s.map fun c => Tok.text [c]) ++ ts) ((nm, acc) :: rest) root =
      buildNodes ts ((nm, acc ++ [HNode.text s]) :: rest) root := by
  cases s with
  | nil => exact absurd rfl hs
  | cons c s' =>
    simp only [List.map_cons, List.cons_append, buildNodes, attachNode,
      List.append_eq]
    rw [pushChild_text_last_not acc [c] hlast, build_text_cont s' [c]]
    simp

end MindStream

namespace MindStream

theorem build_forest (k : Nat) :
    ∀ (ms : List HNode), sizeOf ms ≤ k → cleanForest ms = true →
      ∀ (ts : List Tok) (nm : List Char) (acc : List HNode) (rest : List Frame)
        (root : List HNode),
        (lastIsText acc && headIsText ms) = false →
        buildNodes (tokensOf ms ++ ts) ((nm, acc) :: rest) root =
          buildNodes ts ((nm, acc ++ ms) :: rest) root := by
  induction k with
  | zero =>
    intro ms hsz
    exfalso
    have h1 : 1 ≤ sizeOf ms := by cases ms <;> simp_arith
    omega
  | succ k ih =>
    intro ms hsz hc ts nm acc rest root hhead
    match ms with
    | [] => simp [tokensOf]
    | HNode.text s :: rest' =>
      have hcc := cleanForest_cons _ _ hc
      have hs : s ≠ [] := by
        have := hcc.1
        simp only [cleanNode, Bool.not_eq_true'] at this
        simpa [List.isEmpty_iff] using this
      have hlast : lastIsText acc = false := by
        have : headIsText (HNode.text s :: rest') = true := by
          simp [headIsText, isTextNode]
        simpa [this] using hhead
      have hszr : sizeOf rest' ≤ k := by
        simp only [List.cons.sizeOf_spec, HNode.text.sizeOf_spec] at hsz
        omega
      have hser : tokensOf (HNode.text s :: rest') ++ ts =
          (s.map fun c => Tok.text [c]) ++ (tokensOf rest' ++ ts) := by
        simp [tokensOf, tokensOfNode, List.append_assoc]
      rw [hser, build_text_run s hs _ nm acc rest root hlast]
      have hhead2 : (lastIsText (acc ++ [HNode.text s]) && headIsText rest') = false := by
        rw [lastIsText_concat]
        cases rest' with
        | nil => simp [headIsText]
        | cons m ms' =>
          have := hcc.2.2 m ms' rfl
          simp only [isTextNode, Bool.true_and] at this ⊢
          simpa [headIsText] using this
      rw [ih rest' hszr hcc.2.1 ts nm (acc ++ [HNode.text s]) rest root hhead2]
      simp [List.append_assoc]
    | HNode.comment s :: rest' =>
      have hcc := (cleanForest_cons _ _ hc).1
      simp [cleanNode] at hcc
    | HNode.tag n cs :: rest' =>
      have h1 := cleanForest_cons _ _ hc
      have hcn := h1.1
      simp only [cleanNode, Bool.and_eq_true] at hcn
      have hgood : goodTagName n = true := hcn.1
      have hccs : cleanForest cs = true := hcn.2
      have hcr : cleanForest rest' = true := h1.2.1
      have hvoid : ¬(n ∈ voidTags) := by
        match n, hgood with
        | c :: n', hgood => exact (goodTagName_spec c n' hgood).2.2.2.2.1
      have hszcs : sizeOf cs ≤ k := by
        simp only [List.cons.sizeOf_spec, HNode.tag.sizeOf_spec] at hsz
        omega
      have hszr : sizeOf rest' ≤ k := by
        simp only [List.cons.sizeOf_spec, HNode.tag.sizeOf_spec] at hsz
        omega
      have hser : tokensOf (HNode.tag n cs :: rest') ++ ts =
          Tok.openTag n false :: (tokensOf cs ++
            (Tok.closeTag n :: (tokensOf rest' ++ ts))) := by
        simp [tokensOf, tokensOfNode, List.append_assoc]
      rw [hser]
      simp only [buildNodes, Bool.false_or]
      rw [if_neg (by simpa using hvoid)]
      rw [ih cs hszcs hccs _ n [] ((nm, acc) :: rest) root
        (by simp [lastIsText])]
      simp only [List.nil_append, buildNodes]
      rw [if_pos (by simp [stackHasName])]
      simp only [popTo, popGo, if_pos rfl]
      rw [pushChild_not_text acc (HNode.tag n cs) (by simp [isTextNode])]
      simp only [if_true]
      rw [ih rest' hszr hcr ts nm (acc ++ [HNode.tag n cs]) rest root
        (by rw [lastIsText_concat]; simp [isTextNode])]
      simp [List.append_assoc]

end MindStream

namespace MindStream

theorem parse_clean_body (ms : List HNode) (hc : cleanForest ms = true) :
    parseHtml (serializeNodes [HNode.tag "body".data ms]) =
      [HNode.tag "body".data ms] := by
  have hcb : cleanForest [HNode.tag "body".data ms] = true := by
    simp only [cleanForest, cleanNode, Bool.and_eq_true]
    exact ⟨by decide, hc⟩
  unfold parseHtml
  have hlex : lexHtml ((serializeNodes [HNode.tag "body".data ms]).length + 1)
      (serializeNodes [HNode.tag "body".data ms]) =
      tokensOf [HNode.tag "body".data ms] := by
    have hh := lex_ser (sizeOf [HNode.tag "body".data ms])
      [HNode.tag "body".data ms] (le_refl _) hcb []
      ((serializeNodes [HNode.tag "body".data ms]).length + 1) (by simp)
    simpa [show lexHtml 1 ([] : List Char) = ([] : List Tok) from rfl] using hh
  rw [hlex]
  have htok : tokensOf [HNode.tag "body".data ms] =
      Tok.openTag "body".data false ::
        (tokensOf ms ++ [Tok.closeTag "body".data]) := by
    simp [tokensOf, tokensOfNode]
  rw [htok]
  simp only [buildNodes, Bool.false_or]
  rw [if_neg (by decide)]
  rw [build_forest (sizeOf ms) ms (le_refl _) hc [Tok.closeTag "body".data]
    "body".data [] [] [] (by simp [lastIsText])]
  simp only [List.nil_append, buildNodes]
  rw [if_pos (by simp [stackHasName])]
  simp only [popTo, popGo, ite_self]
  simp [pushChild, buildNodes, unwindStack]

end MindStream

namespace MindStream

theorem allowedForest_append (xs ys : List HNode) :
    allowedForest (xs ++ ys) = (allowedForest xs && allowedForest ys) := by
  induction xs with
  | nil => simp [allowedForest]
  | cons a as ih => simp [allowedForest, ih, Bool.and_assoc]

theorem hasContentNodes_append (xs ys : List HNode) :
    hasContentNodes (xs ++ ys) = (hasContentNodes xs || hasContentNodes ys) := by
  induction xs with
  | nil => simp [hasContentNodes]
  | cons a as ih => simp [hasContentNodes, ih, Bool.or_assoc]

theorem prunedForest_append (xs ys : List HNode) :
    prunedForest (xs ++ ys) = (prunedForest xs && prunedForest ys) := by
  induction xs with
  | nil => simp [prunedForest]
  | cons a as ih => simp [prunedForest, ih, Bool.and_assoc]

theorem escapeHtml_append (xs ys : List Char) :
    escapeHtml (xs ++ ys) = escapeHtml xs ++ escapeHtml ys := by
  simp [escapeHtml]

theorem proc_allowed (k : Nat) :
    (∀ n : HNode, sizeOf n ≤ k → allowedForest (processNode n) = true) ∧
    (∀ ns : List HNode, sizeOf ns ≤ k → allowedForest (processNodes ns) = true) := by
  induction k with
  | zero =>
    constructor
    · intro n hsz
      exfalso
      have : 1 ≤ sizeOf n := by cases n <;> simp_arith
      omega
    · intro ns hsz
      exfalso
      have : 1 ≤ sizeOf ns := by cases ns <;> simp_arith
      omega
  | succ k ih =>
    constructor
    · intro n hsz
      match n with
      | HNode.text s => simp [processNode, allowedForest, allowedNode]
      | HNode.comment s => simp [processNode, allowedForest, allowedNode]
      | HNode.tag nm cs =>
        have hszcs : sizeOf cs ≤ k := by
          simp only [HNode.tag.sizeOf_spec] at hsz
          omega
        by_cases hmem : nm ∈ allowedTags
        · simp [processNode, hmem, allowedForest, allowedNode, ih.2 cs hszcs]
        · simp [processNode, hmem, ih.2 cs hszcs]
    · intro ns hsz
      match ns with
      | [] => simp [processNodes, allowedForest]
      | n :: rest =>
        have h1 : sizeOf n ≤ k := by
          simp only [List.cons.sizeOf_spec] at hsz
          omega
        have h2 : sizeOf rest ≤ k := by
          simp only [List.cons.sizeOf_spec] at hsz
          omega
        simp [processNodes, allowedForest_append, ih.1 n h1, ih.2 rest h2]

theorem proc_id (k : Nat) :
    (∀ n : HNode, sizeOf n ≤ k → allowedNode n = true → processNode n = [n]) ∧
    (∀ ns : List HNode, sizeOf ns ≤ k → allowedForest ns = true →
      processNodes ns = ns) := by
  induction k with
  | zero =>
    constructor
    · intro n hsz
      exfalso
      have : 1 ≤ sizeOf n := by cases n <;> simp_arith
      omega
    · intro ns hsz
      exfalso
      have : 1 ≤ sizeOf ns := by cases ns <;> simp_arith
      omega
  | succ k ih =>
    constructor
    · intro n hsz hall
      match n with
      | HNode.text s => rfl
      | HNode.comment s => simp [allowedNode] at hall
      | HNode.tag nm cs =>
        have hszcs : sizeOf cs ≤ k := by
          simp only [HNode.tag.sizeOf_spec] at hsz
          omega
        simp only [allowedNode, Bool.and_eq_true, decide_eq_true_eq] at hall
        simp [processNode, hall.1, ih.2 cs hszcs hall.2]
    · intro ns hsz hall
      match ns with
      | [] => rfl
      | n :: rest =>
        have h1 : sizeOf n ≤ k := by
          simp only [List.cons.sizeOf_spec] at hsz
          omega
        have h2 : sizeOf rest ≤ k := by
          simp only [List.cons.sizeOf_spec] at hsz
          omega
        simp only [allowedForest, Bool.and_eq_true] at hall
        simp [processNodes, ih.1 n h1 hall.1, ih.2 rest h2 hall.2]

end MindStream

namespace MindStream

theorem prune_content (k : Nat) :
    (∀ n : HNode, sizeOf n ≤ k →
      hasContentNodes (pruneNode n) = hasContentNode n) ∧
    (∀ ns : List HNode, sizeOf ns ≤ k →
      hasContentNodes (pruneNodes ns) = hasContentNodes ns) := by
  induction k with
  | zero =>
    constructor
    · intro n hsz
      exfalso
      have : 1 ≤ sizeOf n := by cases n <;> simp_arith
      omega
    · intro ns hsz
      exfalso
      have : 1 ≤ sizeOf ns := by cases ns <;> simp_arith
      omega
  | succ k ih =>
    constructor
    · intro n hsz
      match n with
      | HNode.text s => simp [pruneNode, hasContentNodes, hasContentNode]
      | HNode.comment s => simp [pruneNode, hasContentNodes, hasContentNode]
      | HNode.tag nm cs =>
        have hszcs : sizeOf cs ≤ k := by
          simp only [HNode.tag.sizeOf_spec] at hsz
          omega
        by_cases hcon : hasContentNodes cs = true
        · simp [pruneNode, hcon, hasContentNodes, hasContentNode,
            ih.2 cs hszcs]
        · simp only [Bool.not_eq_true] at hcon
          simp [pruneNode, hcon, hasContentNodes, hasContentNode]
    · intro ns hsz
      match ns with
      | [] => rfl
      | n :: rest =>
        have h1 : sizeOf n ≤ k := by
          simp only [List.cons.sizeOf_spec] at hsz
          omega
        have h2 : sizeOf rest ≤ k := by
          simp only [List.cons.sizeOf_spec] at hsz
          omega
        simp [pruneNodes, hasContentNodes_append, ih.1 n h1, ih.2 rest h2,
          hasContentNodes]

theorem prune_pruned (k : Nat) :
    (∀ n : HNode, sizeOf n ≤ k → prunedForest (pruneNode n) = true) ∧
    (∀ ns : List HNode, sizeOf ns ≤ k → prunedForest (pruneNodes ns) = true) := by
  induction k with
  | zero =>
    constructor
    · intro n hsz
      exfalso
      have : 1 ≤ sizeOf n := by cases n <;> simp_arith
      omega
    · intro ns hsz
      exfalso
      have : 1 ≤ sizeOf ns := by cases ns <;> simp_arith
      omega
  | succ k ih =>
    constructor
    · intro n hsz
      match n with
      | HNode.text s => simp [pruneNode, prunedForest, prunedNode]
      | HNode.comment s => simp [pruneNode, prunedForest, prunedNode]
      | HNode.tag nm cs =>
        have hszcs : sizeOf cs ≤ k := by
          simp only [HNode.tag.sizeOf_spec] at hsz
          omega
        by_cases hcon : hasContentNodes cs = true
        · have hpc : hasContentNodes (pruneNodes cs) = true := by
            rw [(prune_content k).2 cs hszcs]
            exact hcon
          simp [pruneNode, hcon, prunedForest, prunedNode, hpc, ih.2 cs hszcs]
        · simp only [Bool.not_eq_true] at hcon
          simp [pruneNode, hcon, prunedForest]
    · intro ns hsz
      match ns with
      | [] => rfl
      | n :: rest =>
        have h1 : sizeOf n ≤ k := by
          simp only [List.cons.sizeOf_spec] at hsz
          omega
        have h2 : sizeOf rest ≤ k := by
          simp only [List.cons.sizeOf_spec] at hsz
          omega
        simp [pruneNodes, prunedForest_append, ih.1 n h1, ih.2 rest h2]

theorem prune_allowed (k : Nat) :
    (∀ n : HNode, sizeOf n ≤ k → allowedNode n = true →
      allowedForest (pruneNode n) = true) ∧
    (∀ ns : List HNode, sizeOf ns ≤ k → allowedForest ns = true →
      allowedForest (pruneNodes ns) = true) := by
  induction k with
  | zero =>
    constructor
    · intro n hsz
      exfalso
      have : 1 ≤ sizeOf n := by cases n <;> simp_arith
      omega
    · intro ns hsz
      exfalso
      have : 1 ≤ sizeOf ns := by cases ns <;> simp_arith
      omega
  | succ k ih =>
    constructor
    · intro n hsz hall
      match n with
      | HNode.text s => simp [pruneNode, allowedForest, allowedNode]
      | HNode.comment s => simp [allowedNode] at hall
      | HNode.tag nm cs =>
        have hszcs : sizeOf cs ≤ k := by
          simp only [HNode.tag.sizeOf_spec] at hsz
          omega
        simp only [allowedNode, Bool.and_eq_true, decide_eq_true_eq] at hall
        by_cases hcon : hasContentNodes cs = true
        · simp [pruneNode, hcon, allowedForest, allowedNode, hall.1,
            ih.2 cs hszcs hall.2]
        · simp only [Bool.not_eq_true] at hcon
          simp [pruneNode, hcon, allowedForest]
    · intro ns hsz hall
      match ns with
      | [] => rfl
      | n :: rest =>
        have h1 : sizeOf n ≤ k := by
          simp only [List.cons.sizeOf_spec] at hsz
          omega
        have h2 : sizeOf rest ≤ k := by
          simp only [List.cons.sizeOf_spec] at hsz
          omega
        simp only [allowedForest, Bool.and_eq_true] at hall
        simp [pruneNodes, allowedForest_append, ih.1 n h1 hall.1,
          ih.2 rest h2 hall.2]

theorem prune_id (k : Nat) :
    (∀ n : HNode, sizeOf n ≤ k → prunedNode n = true → pruneNode n = [n]) ∧
    (∀ ns : List HNode, sizeOf ns ≤ k → prunedForest ns = true →
      pruneNodes ns = ns) := by
  induction k with
  | zero =>
    constructor
    · intro n hsz
      exfalso
      have : 1 ≤ sizeOf n := by cases n <;> simp_arith
      omega
    · intro ns hsz
      exfalso
      have : 1 ≤ sizeOf ns := by cases ns <;> simp_arith
      omega
  | succ k ih =>
    constructor
    · intro n hsz hpr
      match n with
      | HNode.text s => rfl
      | HNode.comment s => rfl
      | HNode.tag nm cs =>
        have hszcs : sizeOf cs ≤ k := by
          simp only [HNode.tag.sizeOf_spec] at hsz
          omega
        simp only [prunedNode, Bool.and_eq_true] at hpr
        simp [pruneNode, hpr.1, ih.2 cs hszcs hpr.2]
    · intro ns hsz hpr
      match ns with
      | [] => rfl
      | n :: rest =>
        have h1 : sizeOf n ≤ k := by
          simp only [List.cons.sizeOf_spec] at hsz
          omega
        have h2 : sizeOf rest ≤ k := by
          simp only [List.cons.sizeOf_spec] at hsz
          omega
        simp only [prunedForest, Bool.and_eq_true] at hpr
        simp [pruneNodes, ih.1 n h1 hpr.1, ih.2 rest h2 hpr.2]

end MindStream

namespace MindStream

theorem normForest_text_empty (s : List Char) (rest : List HNode)
    (hse : s.isEmpty = true) :
    normForest (HNode.text s :: rest) = normForest rest := by
  simp only [normForest]
  rw [if_pos hse]

theorem normForest_text_merge (s t : List Char) (rest r2 : List HNode)
    (hse : ¬(s.isEmpty = true)) (hr : normForest rest = HNode.text t :: r2) :
    normForest (HNode.text s :: rest) = HNode.text (s ++ t) :: r2 := by
  simp only [normForest]
  rw [if_neg hse, hr]

theorem normForest_text_keep (s : List Char) (rest : List HNode)
    (hse : ¬(s.isEmpty = true))
    (hr : headIsText (normForest rest) = false) :
    normForest (HNode.text s :: rest) = HNode.text s :: normForest rest := by
  simp only [normForest]
  rw [if_neg hse]
  cases hrr : normForest rest with
  | nil => rfl
  | cons m r2 =>
    rw [hrr] at hr
    cases m with
    | text t => simp [headIsText, isTextNode] at hr
    | tag nm cs => rfl
    | comment t => rfl

theorem ser_norm (k : Nat) :
    (∀ n : HNode, sizeOf n ≤ k → serializeNode (normNode n) = serializeNode n) ∧
    (∀ ns : List HNode, sizeOf ns ≤ k →
      serializeNodes (normForest ns) = serializeNodes ns) := by
  induction k with
  | zero =>
    constructor
    · intro n hsz
      exfalso
      have : 1 ≤ sizeOf n := by cases n <;> simp_arith
      omega
    · intro ns hsz
      exfalso
      have : 1 ≤ sizeOf ns := by cases ns <;> simp_arith
      omega
  | succ k ih =>
    constructor
    · intro n hsz
      match n with
      | HNode.text s => rfl
      | HNode.comment s => rfl
      | HNode.tag nm cs =>
        have hszcs : sizeOf cs ≤ k := by
          simp only [HNode.tag.sizeOf_spec] at hsz
          omega
        simp [normNode, serializeNode, ih.2 cs hszcs]
    · intro ns hsz
      match ns with
      | [] => rfl
      | HNode.text s :: rest =>
        have h2 : sizeOf rest ≤ k := by
          simp only [List.cons.sizeOf_spec] at hsz
          omega
        by_cases hse : s.isEmpty = true
        · rw [normForest_text_empty s rest hse, ih.2 rest h2]
          have hs : s = [] := by simpa [List.isEmpty_iff] using hse
          simp [serializeNodes, serializeNode, hs, escapeHtml]
        · cases hr : normForest rest with
          | nil =>
            rw [normForest_text_keep s rest hse (by rw [hr]; rfl), hr]
            have := ih.2 rest h2
            rw [hr] at this
            simp [serializeNodes, ← this]
          | cons m r2 =>
            cases m with
            | text t =>
              rw [normForest_text_merge s t rest r2 hse hr]
              have := ih.2 rest h2
              rw [hr] at this
              simp only [serializeNodes, serializeNode] at this ⊢
              rw [← this, escapeHtml_append, List.append_assoc]
            | tag nm cs =>
              rw [normForest_text_keep s rest hse (by rw [hr]; rfl), hr]
              have := ih.2 rest h2
              rw [hr] at this
              simp only [serializeNodes] at this ⊢
              rw [this]
            | comment t =>
              rw [normForest_text_keep s rest hse (by rw [hr]; rfl), hr]
              have := ih.2 rest h2
              rw [hr] at this
              simp only [serializeNodes] at this ⊢
              rw [this]
      | HNode.comment s :: rest =>
        have h2 : sizeOf rest ≤ k := by
          simp only [List.cons.sizeOf_spec] at hsz
          omega
        show serializeNodes (normNode (HNode.comment s) :: normForest rest) =
          serializeNodes (HNode.comment s :: rest)
        simp only [serializeNodes, normNode]
        rw [ih.2 rest h2]
      | HNode.tag nm cs :: rest =>
        have h1 : sizeOf (HNode.tag nm cs) ≤ k := by
          simp only [List.cons.sizeOf_spec] at hsz
          omega
        have h2 : sizeOf rest ≤ k := by
          simp only [List.cons.sizeOf_spec] at hsz
          omega
        show serializeNodes (normNode (HNode.tag nm cs) :: normForest rest) =
          serializeNodes (HNode.tag nm cs :: rest)
        simp only [serializeNodes]
        rw [ih.1 (HNode.tag nm cs) h1, ih.2 rest h2]

end MindStream

namespace MindStream

theorem norm_content (k : Nat) :
    (∀ n : HNode, sizeOf n ≤ k → hasContentNode (normNode n) = hasContentNode n) ∧
    (∀ ns : List HNode, sizeOf ns ≤ k →
      hasContentNodes (normForest ns) = hasContentNodes ns) := by
  induction k with
  | zero =>
    constructor
    · intro n hsz
      exfalso
      have : 1 ≤ sizeOf n := by cases n <;> simp_arith
      omega
    · intro ns hsz
      exfalso
      have : 1 ≤ sizeOf ns := by cases ns <;> simp_arith
      omega
  | succ k ih =>
    constructor
    · intro n hsz
      match n with
      | HNode.text s => rfl
      | HNode.comment s => rfl
      | HNode.tag nm cs =>
        have hszcs : sizeOf cs ≤ k := by
          simp only [HNode.tag.sizeOf_spec] at hsz
          omega
        simp [normNode, hasContentNode, ih.2 cs hszcs]
    · intro ns hsz
      match ns with
      | [] => rfl
      | HNode.text s :: rest =>
        have h2 : sizeOf rest ≤ k := by
          simp only [List.cons.sizeOf_spec] at hsz
          omega
        by_cases hse : s.isEmpty = true
        · rw [normForest_text_empty s rest hse, ih.2 rest h2]
          have hs : s = [] := by simpa [List.isEmpty_iff] using hse
          simp [hasContentNodes, hasContentNode, hs]
        · cases hr : normForest rest with
          | nil =>
            rw [normForest_text_keep s rest hse (by rw [hr]; rfl), hr]
            have := ih.2 rest h2
            rw [hr] at this
            simp only [hasContentNodes, hasContentNode] at this ⊢
            rw [← this]
          | cons m r2 =>
            cases m with
            | text t =>
              rw [normForest_text_merge s t rest r2 hse hr]
              have := ih.2 rest h2
              rw [hr] at this
              simp only [hasContentNodes, hasContentNode] at this ⊢
              rw [← this, List.any_append, Bool.or_assoc]
            | tag nm cs =>
              rw [normForest_text_keep s rest hse (by rw [hr]; rfl), hr]
              have := ih.2 rest h2
              rw [hr] at this
              simp only [hasContentNodes] at this ⊢
              rw [this]
            | comment t =>
              rw [normForest_text_keep s rest hse (by rw [hr]; rfl), hr]
              have := ih.2 rest h2
              rw [hr] at this
              simp only [hasContentNodes] at this ⊢
              rw [this]
      | HNode.comment s :: rest =>
        have h2 : sizeOf rest ≤ k := by
          simp only [List.cons.sizeOf_spec] at hsz
          omega
        show hasContentNodes (normNode (HNode.comment s) :: normForest rest) =
          hasContentNodes (HNode.comment s :: rest)
        simp only [hasContentNodes, normNode]
        rw [ih.2 rest h2]
      | HNode.tag nm cs :: rest =>
        have h1 : sizeOf (HNode.tag nm cs) ≤ k := by
          simp only [List.cons.sizeOf_spec] at hsz
          omega
        have h2 : sizeOf rest ≤ k := by
          simp only [List.cons.sizeOf_spec] at hsz
          omega
        show hasContentNodes (normNode (HNode.tag nm cs) :: normForest rest) =
          hasContentNodes (HNode.tag nm cs :: rest)
        simp only [hasContentNodes]
        rw [ih.1 (HNode.tag nm cs) h1, ih.2 rest h2]

theorem norm_pruned (k : Nat) :
    (∀ n : HNode, sizeOf n ≤ k → prunedNode n = true →
      prunedNode (normNode n) = true) ∧
    (∀ ns : List HNode, sizeOf ns ≤ k → prunedForest ns = true →
      prunedForest (normForest ns) = true) := by
  induction k with
  | zero =>
    constructor
    · intro n hsz
      exfalso
      have : 1 ≤ sizeOf n := by cases n <;> simp_arith
      omega
    · intro ns hsz
      exfalso
      have : 1 ≤ sizeOf ns := by cases ns <;> simp_arith
      omega
  | succ k ih =>
    constructor
    · intro n hsz hpr
      match n with
      | HNode.text s => rfl
      | HNode.comment s => rfl
      | HNode.tag nm cs =>
        have hszcs : sizeOf cs ≤ k := by
          simp only [HNode.tag.sizeOf_spec] at hsz
          omega
        simp only [prunedNode, Bool.and_eq_true] at hpr
        have hc : hasContentNodes (normForest cs) = true := by
          rw [(norm_content k).2 cs hszcs]
          exact hpr.1
        simp only [normNode, prunedNode, Bool.and_eq_true]
        exact ⟨hc, ih.2 cs hszcs hpr.2⟩
    · intro ns hsz hpr
      match ns with
      | [] => rfl
      | HNode.text s :: rest =>
        have h2 : sizeOf rest ≤ k := by
          simp only [List.cons.sizeOf_spec] at hsz
          omega
        simp only [prunedForest, Bool.and_eq_true] at hpr
        have hrest := ih.2 rest h2 hpr.2
        by_cases hse : s.isEmpty = true
        · rw [normForest_text_empty s rest hse]
          exact hrest
        · cases hr : normForest rest with
          | nil =>
            rw [normForest_text_keep s rest hse (by rw [hr]; rfl), hr]
            simp [prunedForest, prunedNode]
          | cons m r2 =>
            cases m with
            | text t =>
              rw [normForest_text_merge s t rest r2 hse hr]
              rw [hr] at hrest
              simp only [prunedForest, Bool.and_eq_true] at hrest ⊢
              exact ⟨by simp [prunedNode, allowedNode], hrest.2⟩
            | tag nm cs =>
              rw [normForest_text_keep s rest hse (by rw [hr]; rfl), hr]
              rw [hr] at hrest
              simp only [prunedForest, Bool.and_eq_true, prunedNode] at hrest ⊢
              exact ⟨by simp [prunedNode, allowedNode], hrest⟩
            | comment t =>
              rw [normForest_text_keep s rest hse (by rw [hr]; rfl), hr]
              rw [hr] at hrest
              simp only [prunedForest, Bool.and_eq_true, prunedNode] at hrest ⊢
              exact ⟨by simp [prunedNode, allowedNode], hrest⟩
      | HNode.comment s :: rest =>
        have h2 : sizeOf rest ≤ k := by
          simp only [List.cons.sizeOf_spec] at hsz
          omega
        simp only [prunedForest, Bool.and_eq_true] at hpr
        show prunedForest (normNode (HNode.comment s) :: normForest rest) = true
        simp only [prunedForest, normNode, prunedNode, Bool.and_eq_true,
          Bool.true_and]
        exact ih.2 rest h2 hpr.2
      | HNode.tag nm cs :: rest =>
        have h1 : sizeOf (HNode.tag nm cs) ≤ k := by
          simp only [List.cons.sizeOf_spec] at hsz
          omega
        have h2 : sizeOf rest ≤ k := by
          simp only [List.cons.sizeOf_spec] at hsz
          omega
        simp only [prunedForest, Bool.and_eq_true] at hpr
        show prunedForest (normNode (HNode.tag nm cs) :: normForest rest) = true
        simp only [prunedForest, Bool.and_eq_true]
        exact ⟨ih.1 (HNode.tag nm cs) h1 hpr.1, ih.2 rest h2 hpr.2⟩

theorem norm_allowed (k : Nat) :
    (∀ n : HNode, sizeOf n ≤ k → allowedNode n = true →
      allowedNode (normNode n) = true) ∧
    (∀ ns : List HNode, sizeOf ns ≤ k → allowedForest ns = true →
      allowedForest (normForest ns) = true) := by
  induction k with
  | zero =>
    constructor
    · intro n hsz
      exfalso
      have : 1 ≤ sizeOf n := by cases n <;> simp_arith
      omega
    · intro ns hsz
      exfalso
      have : 1 ≤ sizeOf ns := by cases ns <;> simp_arith
      omega
  | succ k ih =>
    constructor
    · intro n hsz hall
      match n with
      | HNode.text s => rfl
      | HNode.comment s => simp [allowedNode] at hall
      | HNode.tag nm cs =>
        have hszcs : sizeOf cs ≤ k := by
          simp only [HNode.tag.sizeOf_spec] at hsz
          omega
        simp only [allowedNode, Bool.and_eq_true, decide_eq_true_eq] at hall
        simp only [normNode, allowedNode, Bool.and_eq_true, decide_eq_true_eq]
        exact ⟨hall.1, ih.2 cs hszcs hall.2⟩
    · intro ns hsz hall
      match ns with
      | [] => rfl
      | HNode.text s :: rest =>
        have h2 : sizeOf rest ≤ k := by
          simp only [List.cons.sizeOf_spec] at hsz
          omega
        simp only [allowedForest, Bool.and_eq_true] at hall
        have hrest := ih.2 rest h2 hall.2
        by_cases hse : s.isEmpty = true
        · rw [normForest_text_empty s rest hse]
          exact hrest
        · cases hr : normForest rest with
          | nil =>
            rw [normForest_text_keep s rest hse (by rw [hr]; rfl), hr]
            simp [allowedForest, allowedNode]
          | cons m r2 =>
            cases m with
            | text t =>
              rw [normForest_text_merge s t rest r2 hse hr]
              rw [hr] at hrest
              simp only [allowedForest, Bool.and_eq_true, allowedNode] at hrest ⊢
              exact ⟨by simp [prunedNode, allowedNode], hrest.2⟩
            | tag nm cs =>
              rw [normForest_text_keep s rest hse (by rw [hr]; rfl), hr]
              rw [hr] at hrest
              simp only [allowedForest, Bool.and_eq_true, allowedNode] at hrest ⊢
              exact ⟨by simp [prunedNode, allowedNode], hrest⟩
            | comment t =>
              rw [hr] at hrest
              simp [allowedForest, allowedNode] at hrest
      | HNode.comment s :: rest =>
        simp only [allowedForest, Bool.and_eq_true, allowedNode] at hall
        exact absurd hall.1 (by simp)
      | HNode.tag nm cs :: rest =>
        have h1 : sizeOf (HNode.tag nm cs) ≤ k := by
          simp only [List.cons.sizeOf_spec] at hsz
          omega
        have h2 : sizeOf rest ≤ k := by
          simp only [List.cons.sizeOf_spec] at hsz
          omega
        simp only [allowedForest, Bool.and_eq_true] at hall
        show allowedForest (normNode (HNode.tag nm cs) :: normForest rest) = true
        simp only [allowedForest, Bool.and_eq_true]
        exact ⟨ih.1 (HNode.tag nm cs) h1 hall.1, ih.2 rest h2 hall.2⟩

end MindStream

namespace MindStream

theorem allowed_good : allowedTags.all goodTagName = true := by decide

theorem good_of_allowed (nm : List Char) (h : nm ∈ allowedTags) :
    goodTagName nm = true := by
  have ha := allowed_good
  rw [List.all_eq_true] at ha
  exact ha nm h

theorem cleanForest_build (n : HNode) (rest : List HNode)
    (h1 : cleanNode n = true) (h2 : cleanForest rest = true)
    (h3 : (isTextNode n && headIsText rest) = false) :
    cleanForest (n :: rest) = true := by
  cases rest with
  | nil => simpa [cleanForest] using h1
  | cons m ms =>
    simp only [cleanForest, Bool.and_eq_true, Bool.not_eq_true']
    refine ⟨⟨h1, ?_⟩, h2⟩
    simpa [headIsText] using h3

theorem norm_clean (k : Nat) :
    ∀ ns : List HNode, sizeOf ns ≤ k → allowedForest ns = true →
      cleanForest (normForest ns) = true := by
  induction k with
  | zero =>
    intro ns hsz
    exfalso
    have : 1 ≤ sizeOf ns := by cases ns <;> simp_arith
    omega
  | succ k ih =>
    intro ns hsz hall
    match ns with
    | [] => rfl
    | HNode.text s :: rest =>
      have h2 : sizeOf rest ≤ k := by
        simp only [List.cons.sizeOf_spec] at hsz
        omega
      simp only [allowedForest, Bool.and_eq_true] at hall
      have hrest := ih rest h2 hall.2
      by_cases hse : s.isEmpty = true
      · rw [normForest_text_empty s rest hse]
        exact hrest
      · cases hr : normForest rest with
        | nil =>
          rw [normForest_text_keep s rest hse (by rw [hr]; rfl), hr]
          simpa [cleanForest, cleanNode] using hse
        | cons m r2 =>
          cases m with
          | text t =>
            rw [normForest_text_merge s t rest r2 hse hr]
            rw [hr] at hrest
            have hcc := cleanForest_cons _ _ hrest
            have ht : ¬(t.isEmpty = true) := by
              have := hcc.1
              simpa [cleanNode] using this
            refine cleanForest_build _ _ ?_ hcc.2.1 ?_
            · have ht2 : t ≠ [] := by simpa [List.isEmpty_iff] using ht
              simp [cleanNode, List.isEmpty_iff, List.append_eq_nil, ht2]
            · cases r2 with
              | nil => simp [headIsText]
              | cons m2 ms2 =>
                have := hcc.2.2 m2 ms2 rfl
                simp only [isTextNode, Bool.true_and] at this
                simp [headIsText, isTextNode, this]
          | tag nm2 cs2 =>
            rw [normForest_text_keep s rest hse (by rw [hr]; rfl), hr]
            rw [hr] at hrest
            refine cleanForest_build _ _ ?_ hrest ?_
            · simpa [cleanNode] using hse
            · simp [headIsText, isTextNode]
          | comment t =>
            rw [hr] at hrest
            have := (cleanForest_cons _ _ hrest).1
            simp [cleanNode] at this
    | HNode.comment s :: rest =>
      simp only [allowedForest, Bool.and_eq_true, allowedNode] at hall
      exact absurd hall.1 (by simp)
    | HNode.tag nm cs :: rest =>
      have h1 : sizeOf cs ≤ k := by
        simp only [List.cons.sizeOf_spec, HNode.tag.sizeOf_spec] at hsz
        omega
      have h2 : sizeOf rest ≤ k := by
        simp only [List.cons.sizeOf_spec] at hsz
        omega
      simp only [allowedForest, Bool.and_eq_true, allowedNode,
        decide_eq_true_eq] at hall
      show cleanForest (normNode (HNode.tag nm cs) :: normForest rest) = true
      simp only [normNode]
      refine cleanForest_build _ _ ?_ (ih rest h2 hall.2) ?_
      · simp only [cleanNode, Bool.and_eq_true]
        exact ⟨good_of_allowed nm hall.1.1, ih cs h1 hall.1.2⟩
      · simp [isTextNode]

end MindStream

namespace MindStream

theorem escChar_ws (c : Char) (h : isPyWs c = true) : escChar c = [c] := by
  have h1 : c ≠ '&' := fun heq => by rw [heq] at h; exact absurd h (by decide)
  have h2 : c ≠ '<' := fun heq => by rw [heq] at h; exact absurd h (by decide)
  have h3 : c ≠ '>' := fun heq => by rw [heq] at h; exact absurd h (by decide)
  simp [escChar, h1, h2, h3]

theorem escChar_all_nonws (c : Char) (h : isPyWs c = false) :
    ∀ ch ∈ escChar c, isPyWs ch = false := by
  intro ch hch
  by_cases h1 : c = '&'
  · subst h1
    rw [show escChar '&' = ['&', 'a', 'm', 'p', ';'] from rfl] at hch
    simp only [List.mem_cons, List.not_mem_nil, or_false] at hch
    rcases hch with rfl | rfl | rfl | rfl | rfl <;> decide
  · by_cases h2 : c = '<'
    · subst h2
      rw [show escChar '<' = ['&', 'l', 't', ';'] from rfl] at hch
      simp only [List.mem_cons, List.not_mem_nil, or_false] at hch
      rcases hch with rfl | rfl | rfl | rfl <;> decide
    · by_cases h3 : c = '>'
      · subst h3
        rw [show escChar '>' = ['&', 'g', 't', ';'] from rfl] at hch
        simp only [List.mem_cons, List.not_mem_nil, or_false] at hch
        rcases hch with rfl | rfl | rfl | rfl <;> decide
      · rw [show escChar c = [c] from by simp [escChar, h1, h2, h3]] at hch
        simp only [List.mem_cons, List.not_mem_nil, or_false] at hch
        subst hch
        exact h

theorem escChar_ne_nil (c : Char) : escChar c ≠ [] := by
  unfold escChar
  split
  · simp
  · split
    · simp
    · split <;> simp

theorem endWsState_append (xs : List Char) : ∀ (b : Bool) (ys : List Char),
    endWsState b (xs ++ ys) = endWsState (endWsState b xs) ys := by
  induction xs with
  | nil => intro b ys; rfl
  | cons c r ih => intro b ys; simp [endWsState, ih]

theorem endWsState_no_ws (xs : List Char) : ∀ b, (∀ c ∈ xs, isPyWs c = false) →
    xs ≠ [] → endWsState b xs = false := by
  induction xs with
  | nil => intro b _ h; exact absurd rfl h
  | cons c r ih =>
    intro b hall _
    cases r with
    | nil =>
      show endWsState (isPyWs c) [] = false
      simp [endWsState, hall c (by simp)]
    | cons d r2 =>
      show endWsState (isPyWs c) (d :: r2) = false
      exact ih _ (fun x hx => hall x (List.mem_cons_of_mem c hx)) (by simp)

theorem squeezeWs_cons_nonws (c : Char) (hc : isPyWs c = false)
    (xs : List Char) (b : Bool) :
    squeezeWs b (c :: xs) = c :: squeezeWs false xs := by
  simp [squeezeWs, hc]

theorem sq_esc (s : List Char) : ∀ b,
    squeezeWs b (escapeHtml s) = escapeHtml (squeezeWs b s) ∧
    endWsState b (escapeHtml s) = endWsState b s := by
  induction s with
  | nil => intro b; exact ⟨rfl, rfl⟩
  | cons c r ih =>
    intro b
    have hesc : escapeHtml (c :: r) = escChar c ++ escapeHtml r := by
      simp [escapeHtml]
    by_cases hc : isPyWs c = true
    · rw [hesc, escChar_ws c hc, List.singleton_append]
      constructor
      · cases b with
        | true =>
          rw [show squeezeWs true (c :: escapeHtml r) =
            squeezeWs true (escapeHtml r) from by simp [squeezeWs, hc]]
          rw [(ih true).1]
          rw [show squeezeWs true (c :: r) = squeezeWs true r from by
            simp [squeezeWs, hc]]
        | false =>
          rw [show squeezeWs false (c :: escapeHtml r) =
            ' ' :: squeezeWs true (escapeHtml r) from by simp [squeezeWs, hc]]
          rw [(ih true).1]
          rw [show squeezeWs false (c :: r) = ' ' :: squeezeWs true r from by
            simp [squeezeWs, hc]]
          rw [show escapeHtml (' ' :: squeezeWs true r) =
            ' ' :: escapeHtml (squeezeWs true r) from by
            simp [escapeHtml, escChar]]
      · show endWsState (isPyWs c) (escapeHtml r) = endWsState (isPyWs c) r
        rw [hc]
        exact (ih true).2
    · simp only [Bool.not_eq_true] at hc
      rw [hesc]
      constructor
      · rw [squeezeWs_append, squeezeWs_of_no_ws (escChar c) b
          (escChar_all_nonws c hc)]
        rw [endWsState_no_ws (escChar c) b (escChar_all_nonws c hc)
          (escChar_ne_nil c)]
        rw [(ih false).1]
        rw [squeezeWs_cons_nonws c hc r b]
        rw [show escapeHtml (c :: squeezeWs false r) =
          escChar c ++ escapeHtml (squeezeWs false r) from by simp [escapeHtml]]
      · rw [endWsState_append, endWsState_no_ws (escChar c) b
          (escChar_all_nonws c hc) (escChar_ne_nil c)]
        rw [(ih false).2]
        show endWsState false r = endWsState (isPyWs c) r
        rw [hc]

theorem squeezeWs_false_ne_nil (s : List Char) (hs : s ≠ []) :
    squeezeWs false s ≠ [] := by
  cases s with
  | nil => exact absurd rfl hs
  | cons c r =>
    by_cases hc : isPyWs c = true
    · simp [squeezeWs, hc]
    · simp [squeezeWs, hc]

theorem squeezeWs_any (s : List Char) : ∀ b,
    (squeezeWs b s).any (fun c => !(isPyWs c)) =
      s.any (fun c => !(isPyWs c)) := by
  induction s with
  | nil => intro b; rfl
  | cons c r ih =>
    intro b
    by_cases hc : isPyWs c = true
    · cases b with
      | true => simp [squeezeWs, hc, ih]
      | false =>
        rw [show squeezeWs false (c :: r) = ' ' :: squeezeWs true r from by
          simp [squeezeWs, hc]]
        simp only [List.any_cons, ih, hc]
        rw [show isPyWs ' ' = true from rfl]
    · simp [squeezeWs, hc, ih]

theorem squeezeWs_idem (s : List Char) : ∀ b,
    squeezeWs b (squeezeWs b s) = squeezeWs b s := by
  induction s with
  | nil => intro b; rfl
  | cons c r ih =>
    intro b
    by_cases hc : isPyWs c = true
    · cases b with
      | true =>
        rw [show squeezeWs true (c :: r) = squeezeWs true r from by
          simp [squeezeWs, hc]]
        exact ih true
      | false =>
        rw [show squeezeWs false (c :: r) = ' ' :: squeezeWs true r from by
          simp [squeezeWs, hc]]
        rw [show squeezeWs false (' ' :: squeezeWs true r) =
          ' ' :: squeezeWs true (squeezeWs true r) from by
          simp [squeezeWs, show isPyWs ' ' = true from rfl]]
        rw [ih true]
    · simp only [Bool.not_eq_true] at hc
      rw [squeezeWs_cons_nonws c hc r b, squeezeWs_cons_nonws c hc _ b]
      rw [ih false]

end MindStream

namespace MindStream

theorem isTextNode_squeeze (n : HNode) :
    isTextNode (squeezeNode n) = isTextNode n := by
  cases n <;> rfl

theorem headIsText_squeeze (ns : List HNode) :
    headIsText (squeezeForest ns) = headIsText ns := by
  cases ns with
  | nil => rfl
  | cons n rest => simp [squeezeForest, headIsText, isTextNode_squeeze]

theorem sq_clean (k : Nat) :
    (∀ n : HNode, sizeOf n ≤ k → cleanNode n = true →
      cleanNode (squeezeNode n) = true) ∧
    (∀ ns : List HNode, sizeOf ns ≤ k → cleanForest ns = true →
      cleanForest (squeezeForest ns) = true) := by
  induction k with
  | zero =>
    constructor
    · intro n hsz
      exfalso
      have : 1 ≤ sizeOf n := by cases n <;> simp_arith
      omega
    · intro ns hsz
      exfalso
      have : 1 ≤ sizeOf ns := by cases ns <;> simp_arith
      omega
  | succ k ih =>
    constructor
    · intro n hsz hcl
      match n with
      | HNode.text s =>
        simp only [cleanNode, Bool.not_eq_true'] at hcl
        have hs : s ≠ [] := by simpa [List.isEmpty_iff] using hcl
        simp only [squeezeNode, cleanNode, Bool.not_eq_true']
        simpa [List.isEmpty_iff] using squeezeWs_false_ne_nil s hs
      | HNode.comment s => simp [cleanNode] at hcl
      | HNode.tag nm cs =>
        have hszcs : sizeOf cs ≤ k := by
          simp only [HNode.tag.sizeOf_spec] at hsz
          omega
        simp only [cleanNode, Bool.and_eq_true] at hcl
        simp only [squeezeNode, cleanNode, Bool.and_eq_true]
        exact ⟨hcl.1, ih.2 cs hszcs hcl.2⟩
    · intro ns hsz hcl
      match ns with
      | [] => rfl
      | n :: rest =>
        have h1 : sizeOf n ≤ k := by
          simp only [List.cons.sizeOf_spec] at hsz
          omega
        have h2 : sizeOf rest ≤ k := by
          simp only [List.cons.sizeOf_spec] at hsz
          omega
        have hcc := cleanForest_cons _ _ hcl
        show cleanForest (squeezeNode n :: squeezeForest rest) = true
        refine cleanForest_build _ _ (ih.1 n h1 hcc.1) (ih.2 rest h2 hcc.2.1) ?_
        rw [isTextNode_squeeze, headIsText_squeeze]
        cases rest with
        | nil => simp [headIsText]
        | cons m ms =>
          have := hcc.2.2 m ms rfl
          simp [headIsText, this]

theorem sq_content (k : Nat) :
    (∀ n : HNode, sizeOf n ≤ k →
      hasContentNode (squeezeNode n) = hasContentNode n) ∧
    (∀ ns : List HNode, sizeOf ns ≤ k →
      hasContentNodes (squeezeForest ns) = hasContentNodes ns) := by
  induction k with
  | zero =>
    constructor
    · intro n hsz
      exfalso
      have : 1 ≤ sizeOf n := by cases n <;> simp_arith
      omega
    · intro ns hsz
      exfalso
      have : 1 ≤ sizeOf ns := by cases ns <;> simp_arith
      omega
  | succ k ih =>
    constructor
    · intro n hsz
      match n with
      | HNode.text s =>
        simp only [squeezeNode, hasContentNode]
        exact squeezeWs_any s false
      | HNode.comment s => rfl
      | HNode.tag nm cs =>
        have hszcs : sizeOf cs ≤ k := by
          simp only [HNode.tag.sizeOf_spec] at hsz
          omega
        simp only [squeezeNode, hasContentNode]
        exact ih.2 cs hszcs
    · intro ns hsz
      match ns with
      | [] => rfl
      | n :: rest =>
        have h1 : sizeOf n ≤ k := by
          simp only [List.cons.sizeOf_spec] at hsz
          omega
        have h2 : sizeOf rest ≤ k := by
          simp only [List.cons.sizeOf_spec] at hsz
          omega
        show hasContentNodes (squeezeNode n :: squeezeForest rest) =
          hasContentNodes (n :: rest)
        simp only [hasContentNodes]
        rw [ih.1 n h1, ih.2 rest h2]

theorem sq_allowed (k : Nat) :
    (∀ n : HNode, sizeOf n ≤ k → allowedNode n = true →
      allowedNode (squeezeNode n) = true) ∧
    (∀ ns : List HNode, sizeOf ns ≤ k → allowedForest ns = true →
      allowedForest (squeezeForest ns) = true) := by
  induction k with
  | zero =>
    constructor
    · intro n hsz
      exfalso
      have : 1 ≤ sizeOf n := by cases n <;> simp_arith
      omega
    · intro ns hsz
      exfalso
      have : 1 ≤ sizeOf ns := by cases ns <;> simp_arith
      omega
  | succ k ih =>
    constructor
    · intro n hsz hall
      match n with
      | HNode.text s => rfl
      | HNode.comment s => simp [allowedNode] at hall
      | HNode.tag nm cs =>
        have hszcs : sizeOf cs ≤ k := by
          simp only [HNode.tag.sizeOf_spec] at hsz
          omega
        simp only [allowedNode, Bool.and_eq_true, decide_eq_true_eq] at hall
        simp only [squeezeNode, allowedNode, Bool.and_eq_true,
          decide_eq_true_eq]
        exact ⟨hall.1, ih.2 cs hszcs hall.2⟩
    · intro ns hsz hall
      match ns with
      | [] => rfl
      | n :: rest =>
        have h1 : sizeOf n ≤ k := by
          simp only [List.cons.sizeOf_spec] at hsz
          omega
        have h2 : sizeOf rest ≤ k := by
          simp only [List.cons.sizeOf_spec] at hsz
          omega
        simp only [allowedForest, Bool.and_eq_true] at hall
        show allowedForest (squeezeNode n :: squeezeForest rest) = true
        simp only [allowedForest, Bool.and_eq_true]
        exact ⟨ih.1 n h1 hall.1, ih.2 rest h2 hall.2⟩

theorem sq_pruned (k : Nat) :
    (∀ n : HNode, sizeOf n ≤ k → prunedNode n = true →
      prunedNode (squeezeNode n) = true) ∧
    (∀ ns : List HNode, sizeOf ns ≤ k → prunedForest ns = true →
      prunedForest (squeezeForest ns) = true) := by
  induction k with
  | zero =>
    constructor
    · intro n hsz
      exfalso
      have : 1 ≤ sizeOf n := by cases n <;> simp_arith
      omega
    · intro ns hsz
      exfalso
      have : 1 ≤ sizeOf ns := by cases ns <;> simp_arith
      omega
  | succ k ih =>
    constructor
    · intro n hsz hpr
      match n with
      | HNode.text s => rfl
      | HNode.comment s => rfl
      | HNode.tag nm cs =>
        have hszcs : sizeOf cs ≤ k := by
          simp only [HNode.tag.sizeOf_spec] at hsz
          omega
        simp only [prunedNode, Bool.and_eq_true] at hpr
        simp only [squeezeNode, prunedNode, Bool.and_eq_true]
        refine ⟨?_, ih.2 cs hszcs hpr.2⟩
        rw [(sq_content k).2 cs hszcs]
        exact hpr.1
    · intro ns hsz hpr
      match ns with
      | [] => rfl
      | n :: rest =>
        have h1 : sizeOf n ≤ k := by
          simp only [List.cons.sizeOf_spec] at hsz
          omega
        have h2 : sizeOf rest ≤ k := by
          simp only [List.cons.sizeOf_spec] at hsz
          omega
        simp only [prunedForest, Bool.and_eq_true] at hpr
        show prunedForest (squeezeNode n :: squeezeForest rest) = true
        simp only [prunedForest, Bool.and_eq_true]
        exact ⟨ih.1 n h1 hpr.1, ih.2 rest h2 hpr.2⟩

theorem sqf_idem (k : Nat) :
    (∀ n : HNode, sizeOf n ≤ k → squeezeNode (squeezeNode n) = squeezeNode n) ∧
    (∀ ns : List HNode, sizeOf ns ≤ k →
      squeezeForest (squeezeForest ns) = squeezeForest ns) := by
  induction k with
  | zero =>
    constructor
    · intro n hsz
      exfalso
      have : 1 ≤ sizeOf n := by cases n <;> simp_arith
      omega
    · intro ns hsz
      exfalso
      have : 1 ≤ sizeOf ns := by cases ns <;> simp_arith
      omega
  | succ k ih =>
    constructor
    · intro n hsz
      match n with
      | HNode.text s =>
        simp only [squeezeNode]
        rw [squeezeWs_idem s false]
      | HNode.comment s => rfl
      | HNode.tag nm cs =>
        have hszcs : sizeOf cs ≤ k := by
          simp only [HNode.tag.sizeOf_spec] at hsz
          omega
        simp only [squeezeNode]
        rw [ih.2 cs hszcs]
    · intro ns hsz
      match ns with
      | [] => rfl
      | n :: rest =>
        have h1 : sizeOf n ≤ k := by
          simp only [List.cons.sizeOf_spec] at hsz
          omega
        have h2 : sizeOf rest ≤ k := by
          simp only [List.cons.sizeOf_spec] at hsz
          omega
        show squeezeForest (squeezeNode n :: squeezeForest rest) =
          squeezeNode n :: squeezeForest rest
        simp only [squeezeForest]
        rw [ih.1 n h1, ih.2 rest h2]

end MindStream

namespace MindStream

theorem ser_tag_cons_shape (nm : List Char) (cs rest : List HNode) :
    serializeNodes (HNode.tag nm cs :: rest) =
      ('<' :: (nm ++ ['>'])) ++ (serializeNodes cs ++
        (('<' :: '/' :: (nm ++ ['>'])) ++ serializeNodes rest)) := by
  simp [serializeNodes, serializeNode, List.append_assoc]

theorem squeezeWs_ser_tag_reset (st : Bool) (nm : List Char)
    (cs rest : List HNode) :
    squeezeWs st (serializeNodes (HNode.tag nm cs :: rest)) =
      squeezeWs false (serializeNodes (HNode.tag nm cs :: rest)) := by
  rw [ser_tag_cons_shape]
  rw [show ('<' :: (nm ++ ['>'])) ++ (serializeNodes cs ++
      (('<' :: '/' :: (nm ++ ['>'])) ++ serializeNodes rest)) =
    '<' :: ((nm ++ ['>']) ++ (serializeNodes cs ++
      (('<' :: '/' :: (nm ++ ['>'])) ++ serializeNodes rest))) from rfl]
  rw [squeezeWs_cons_nonws '<' (by decide), squeezeWs_cons_nonws '<' (by decide)]

theorem squeeze_serialize (k : Nat) :
    ∀ ns : List HNode, sizeOf ns ≤ k → cleanForest ns = true →
      squeezeWs false (serializeNodes ns) =
        serializeNodes (squeezeForest ns) := by
  induction k with
  | zero =>
    intro ns hsz
    exfalso
    have : 1 ≤ sizeOf ns := by cases ns <;> simp_arith
    omega
  | succ k ih =>
    intro ns hsz hcl
    match ns with
    | [] => rfl
    | HNode.text s :: rest =>
      have h2 : sizeOf rest ≤ k := by
        simp only [List.cons.sizeOf_spec] at hsz
        omega
      have hcc := cleanForest_cons _ _ hcl
      show squeezeWs false (escapeHtml s ++ serializeNodes rest) =
        serializeNodes (squeezeNode (HNode.text s) :: squeezeForest rest)
      rw [squeezeWs_append, (sq_esc s false).1]
      show escapeHtml (squeezeWs false s) ++ _ =
        escapeHtml (squeezeWs false s) ++ serializeNodes (squeezeForest rest)
      congr 1
      cases rest with
      | nil => rfl
      | cons m ms =>
        cases m with
        | text t =>
          have := hcc.2.2 (HNode.text t) ms rfl
          simp [isTextNode] at this
        | comment t =>
          have := (cleanForest_cons _ _ hcc.2.1).1
          simp [cleanNode] at this
        | tag nm2 cs2 =>
          rw [squeezeWs_ser_tag_reset]
          exact ih (HNode.tag nm2 cs2 :: ms) h2 hcc.2.1
    | HNode.comment s :: rest =>
      have := (cleanForest_cons _ _ hcl).1
      simp [cleanNode] at this
    | HNode.tag nm cs :: rest =>
      have h1 : sizeOf cs ≤ k := by
        simp only [List.cons.sizeOf_spec, HNode.tag.sizeOf_spec] at hsz
        omega
      have h2 : sizeOf rest ≤ k := by
        simp only [List.cons.sizeOf_spec] at hsz
        omega
      have hcc := cleanForest_cons _ _ hcl
      have hgood : goodTagName nm = true := by
        have := hcc.1
        simp only [cleanNode, Bool.and_eq_true] at this
        exact this.1
      have hccs : cleanForest cs = true := by
        have := hcc.1
        simp only [cleanNode, Bool.and_eq_true] at this
        exact this.2
      have hnmws : ∀ ch ∈ nm, isPyWs ch = false := by
        match nm, hgood with
        | c :: n', hgood => exact (goodTagName_spec c n' hgood).2.2.2.2.2.2
      have hA : ∀ ch ∈ '<' :: (nm ++ ['>']), isPyWs ch = false := by
        intro ch hch
        simp only [List.mem_cons, List.mem_append, List.mem_singleton,
          List.not_mem_nil, or_false] at hch
        rcases hch with rfl | hm | rfl
        · decide
        · exact hnmws ch hm
        · decide
      have hD : ∀ ch ∈ '/' :: (nm ++ ['>']), isPyWs ch = false := by
        intro ch hch
        simp only [List.mem_cons, List.mem_append, List.mem_singleton,
          List.not_mem_nil, or_false] at hch
        rcases hch with rfl | hm | rfl
        · decide
        · exact hnmws ch hm
        · decide
      rw [ser_tag_cons_shape, squeezeWs_append,
        squeezeWs_of_no_ws ('<' :: (nm ++ ['>'])) false hA,
        endWsState_no_ws ('<' :: (nm ++ ['>'])) false hA (by simp),
        squeezeWs_append, ih cs h1 hccs]
      rw [show (('<' :: '/' :: (nm ++ ['>'])) ++ serializeNodes rest) =
        '<' :: (('/' :: (nm ++ ['>'])) ++ serializeNodes rest) from rfl]
      rw [squeezeWs_cons_nonws '<' (by decide), squeezeWs_append,
        squeezeWs_of_no_ws ('/' :: (nm ++ ['>'])) false hD,
        endWsState_no_ws ('/' :: (nm ++ ['>'])) false hD (by simp),
        ih rest h2 hcc.2.1]
      show _ = serializeNodes (HNode.tag nm (squeezeForest cs) ::
        squeezeForest rest)
      rw [ser_tag_cons_shape]
      rfl

end MindStream

namespace MindStream

/-- `noScriptOpen` as a left-to-right scan: the flag records whether the
previous character was `<`. -/
def nso : Bool → List Char → Bool
  | _, [] => true
  | b, c :: rest => (!b || c.toLower ≠ 's') && nso (c = '<') rest

/-- Was the last character `<` (the flag `nso` carries across an
append)? -/
def endLt (b : Bool) : List Char → Bool
  | [] => b
  | c :: r => endLt (c = '<') r

theorem nso_append (xs : List Char) : ∀ (b : Bool) (ys : List Char),
    nso b (xs ++ ys) = (nso b xs && nso (endLt b xs) ys) := by
  induction xs with
  | nil => intro b ys; simp [nso, endLt]
  | cons c r ih => intro b ys; simp [nso, endLt, ih, Bool.and_assoc]

theorem endLt_append (xs : List Char) : ∀ (b : Bool) (ys : List Char),
    endLt b (xs ++ ys) = endLt (endLt b xs) ys := by
  induction xs with
  | nil => intro b ys; rfl
  | cons c r ih => intro b ys; simp [endLt, ih]

theorem noScriptOpen_lt_cons (c2 : Char) (r2 : List Char) :
    noScriptOpen ('<' :: c2 :: r2) =
      ((c2.toLower ≠ 's') && noScriptOpen (c2 :: r2)) := by
  rw [noScriptOpen.eq_def]
  split <;> simp_all
  all_goals try tauto
  all_goals (subst_vars; split <;> simp_all)

theorem noScriptOpen_cons_ne (c : Char) (hc : c ≠ '<') (rest : List Char) :
    noScriptOpen (c :: rest) = noScriptOpen rest := by
  rw [noScriptOpen.eq_def]
  split <;> simp_all
  all_goals try tauto
  all_goals (subst_vars; split <;> simp_all)

theorem nso_spec : ∀ cs : List Char, noScriptOpen cs = nso false cs := by
  intro cs
  induction cs with
  | nil => rfl
  | cons c rest ih =>
    by_cases hc : c = '<'
    · subst hc
      cases rest with
      | nil => decide
      | cons c2 r2 =>
        rw [noScriptOpen_lt_cons, ih]
        have e1 : nso false ('<' :: c2 :: r2) =
            ((!false || ('<'.toLower ≠ 's')) && nso ('<' = '<') (c2 :: r2)) := rfl
        have e2 : nso true (c2 :: r2) =
            ((!true || (c2.toLower ≠ 's')) && nso (c2 = '<') r2) := rfl
        have e3 : nso false (c2 :: r2) =
            ((!false || (c2.toLower ≠ 's')) && nso (c2 = '<') r2) := rfl
        rw [e1, show (decide ('<' = '<')) = true from by decide]
        rw [e2, e3]
        simp [Bool.and_assoc]
    · rw [noScriptOpen_cons_ne c hc rest, ih]
      have e : nso false (c :: rest) =
          ((!false || (c.toLower ≠ 's')) && nso (c = '<') rest) := rfl
      rw [e, show decide (c = '<') = false from by simp [hc]]
      simp

theorem tryStrip_none_s (tl : List Char) (cs : List Char)
    (h : ∀ c2 r, cs = c2 :: r → ¬(c2.toLower = 's')) :
    tryStripElem ('s' :: tl) cs = none := by
  cases cs with
  | nil => rfl
  | cons c2 r =>
    have hne := h c2 r rfl
    simp only [tryStripElem, matchCI]
    rw [if_neg hne]

theorem strip_fuel_id (fuel : Nat) : ∀ cs : List Char,
    noScriptOpen cs = true → stripScriptStyleFuel fuel cs = cs := by
  induction fuel with
  | zero => intro cs _; rfl
  | succ f ih =>
    intro cs h
    cases cs with
    | nil => rfl
    | cons c rest =>
      by_cases hc : c = '<'
      · subst hc
        have hs : ∀ c2 r, rest = c2 :: r → ¬(c2.toLower = 's') := by
          intro c2 r hr
          subst hr
          rw [noScriptOpen_lt_cons] at h
          simp only [Bool.and_eq_true, decide_eq_true_eq, ne_eq] at h
          exact h.1
        have h1 : tryStripElem "script".data rest = none :=
          tryStrip_none_s "cript".data rest hs
        have h2 : tryStripElem "style".data rest = none :=
          tryStrip_none_s "tyle".data rest hs
        have hrest : noScriptOpen rest = true := by
          cases rest with
          | nil => rfl
          | cons c2 r =>
            rw [noScriptOpen_lt_cons] at h
            simp only [Bool.and_eq_true] at h
            exact h.2
        simp only [stripScriptStyleFuel, if_pos rfl]
        rw [h1, h2, ih rest hrest]
        simp
      · have hrest : noScriptOpen rest = true := by
          rw [noScriptOpen_cons_ne c hc rest] at h
          exact h
        simp only [stripScriptStyleFuel]
        rw [if_neg hc, ih rest hrest]

theorem strip_id (cs : List Char) (h : noScriptOpen cs = true) :
    stripScriptStyle cs = cs :=
  strip_fuel_id _ cs h

theorem escChar_no_lt (c : Char) : ∀ ch ∈ escChar c, ¬(ch = '<') := by
  intro ch hch
  by_cases h1 : c = '&'
  · subst h1
    rw [show escChar '&' = ['&', 'a', 'm', 'p', ';'] from rfl] at hch
    simp only [List.mem_cons, List.not_mem_nil, or_false] at hch
    rcases hch with rfl | rfl | rfl | rfl | rfl <;> decide
  · by_cases h2 : c = '<'
    · subst h2
      rw [show escChar '<' = ['&', 'l', 't', ';'] from rfl] at hch
      simp only [List.mem_cons, List.not_mem_nil, or_false] at hch
      rcases hch with rfl | rfl | rfl | rfl <;> decide
    · by_cases h3 : c = '>'
      · subst h3
        rw [show escChar '>' = ['&', 'g', 't', ';'] from rfl] at hch
        simp only [List.mem_cons, List.not_mem_nil, or_false] at hch
        rcases hch with rfl | rfl | rfl | rfl <;> decide
      · rw [show escChar c = [c] from by simp [escChar, h1, h2, h3]] at hch
        simp only [List.mem_cons, List.not_mem_nil, or_false] at hch
        subst hch
        exact h2

theorem escapeHtml_no_lt (s : List Char) : ∀ ch ∈ escapeHtml s, ¬(ch = '<') := by
  intro ch hch
  simp only [escapeHtml, List.mem_flatMap] at hch
  obtain ⟨a, _, hmem⟩ := hch
  exact escChar_no_lt a ch hmem

theorem nso_of_no_lt (xs : List Char) : (∀ c ∈ xs, ¬(c = '<')) →
    nso false xs = true ∧ endLt false xs = false := by
  induction xs with
  | nil => intro _; exact ⟨rfl, rfl⟩
  | cons c r ih =>
    intro h
    have hc : ¬(c = '<') := h c (by simp)
    have hr := ih (fun x hx => h x (List.mem_cons_of_mem c hx))
    constructor
    · show ((!false || _) && nso (decide (c = '<')) r) = true
      rw [show decide (c = '<') = false from by simp [hc]]
      simp [hr.1]
    · show endLt (decide (c = '<')) r = false
      rw [show decide (c = '<') = false from by simp [hc]]
      exact hr.2

end MindStream

namespace MindStream

theorem endLt_last_gt (xs : List Char) (b : Bool) :
    endLt b (xs ++ ['>']) = false := by
  rw [endLt_append]
  simp [endLt]

theorem nso_name_tail (nm : List Char)
    (hch : ∀ ch ∈ nm, ¬(ch = '<')) :
    nso false (nm ++ ['>']) = true := by
  refine (nso_of_no_lt (nm ++ ['>']) ?_).1
  intro ch hmem
  simp only [List.mem_append, List.mem_singleton] at hmem
  rcases hmem with hm | rfl
  · exact hch ch hm
  · decide

theorem clean_safe (k : Nat) :
    (∀ n : HNode, sizeOf n ≤ k → cleanNode n = true →
      nso false (serializeNode n) = true ∧
      endLt false (serializeNode n) = false) ∧
    (∀ ns : List HNode, sizeOf ns ≤ k → cleanForest ns = true →
      nso false (serializeNodes ns) = true ∧
      endLt false (serializeNodes ns) = false) := by
  induction k with
  | zero =>
    constructor
    · intro n hsz
      exfalso
      have : 1 ≤ sizeOf n := by cases n <;> simp_arith
      omega
    · intro ns hsz
      exfalso
      have : 1 ≤ sizeOf ns := by cases ns <;> simp_arith
      omega
  | succ k ih =>
    constructor
    · intro n hsz hcl
      match n with
      | HNode.text s =>
        exact nso_of_no_lt (escapeHtml s) (escapeHtml_no_lt s)
      | HNode.comment s => simp [cleanNode] at hcl
      | HNode.tag nm cs =>
        have hszcs : sizeOf cs ≤ k := by
          simp only [HNode.tag.sizeOf_spec] at hsz
          omega
        simp only [cleanNode, Bool.and_eq_true] at hcl
        have hgood := hcl.1
        have hcf := ih.2 cs hszcs hcl.2
        match nm, hgood with
        | c0 :: n', hgood =>
          obtain ⟨_, h2, _, _, _, h6, _⟩ := goodTagName_spec c0 n' hgood
          have hnolt : ∀ ch ∈ c0 :: n', ¬(ch = '<') :=
            fun ch hm => (h2 ch hm).2
          have hshape : serializeNode (HNode.tag (c0 :: n') cs) =
              ('<' :: ((c0 :: n') ++ ['>'])) ++ (serializeNodes cs ++
                ('<' :: ('/' :: ((c0 :: n') ++ ['>'])))) := by
            simp [serializeNode, List.append_assoc]
          have hA : nso false ('<' :: ((c0 :: n') ++ ['>'])) = true := by
            have eA : nso false ('<' :: ((c0 :: n') ++ ['>'])) =
                ((!false || ('<'.toLower ≠ 's')) &&
                  nso ('<' = '<') ((c0 :: n') ++ ['>'])) := rfl
            have eB : nso true ((c0 :: n') ++ ['>']) =
                ((!true || (c0.toLower ≠ 's')) &&
                  nso (c0 = '<') (n' ++ ['>'])) := rfl
            rw [eA, show decide ('<' = '<') = true from by decide, eB,
              show decide (c0 = '<') = false from by
                simp [hnolt c0 (by simp)]]
            have hn' : nso false (n' ++ ['>']) = true :=
              nso_name_tail n' (fun ch hm => hnolt ch (List.mem_cons_of_mem c0 hm))
            simp [hn', h6]
          have hAend : endLt false ('<' :: ((c0 :: n') ++ ['>'])) = false := by
            rw [show ('<' :: ((c0 :: n') ++ ['>'])) =
              ('<' :: c0 :: n') ++ ['>'] from by simp]
            exact endLt_last_gt _ _
          have hC : nso false ('<' :: ('/' :: ((c0 :: n') ++ ['>']))) = true := by
            have eA : nso false ('<' :: ('/' :: ((c0 :: n') ++ ['>']))) =
                ((!false || ('<'.toLower ≠ 's')) &&
                  nso ('<' = '<') ('/' :: ((c0 :: n') ++ ['>']))) := rfl
            have eB : nso true ('/' :: ((c0 :: n') ++ ['>'])) =
                ((!true || ('/'.toLower ≠ 's')) &&
                  nso ('/' = '<') ((c0 :: n') ++ ['>'])) := rfl
            rw [eA, show decide ('<' = '<') = true from by decide, eB,
              show decide ('/' = '<') = false from by decide]
            have hn' : nso false ((c0 :: n') ++ ['>']) = true :=
              nso_name_tail (c0 :: n') hnolt
            simp only [Bool.and_eq_true]
            exact ⟨by decide, by decide, hn'⟩
          have hCend : endLt false ('<' :: ('/' :: ((c0 :: n') ++ ['>']))) =
              false := by
            rw [show ('<' :: ('/' :: ((c0 :: n') ++ ['>']))) =
              ('<' :: '/' :: c0 :: n') ++ ['>'] from by simp]
            exact endLt_last_gt _ _
          constructor
          · rw [hshape, nso_append, hA, hAend, nso_append, hcf.1, hcf.2, hC]
            rfl
          · rw [hshape, endLt_append, hAend, endLt_append, hcf.2, hCend]
    · intro ns hsz hcl
      match ns with
      | [] => exact ⟨rfl, rfl⟩
      | n :: rest =>
        have h1 : sizeOf n ≤ k := by
          simp only [List.cons.sizeOf_spec] at hsz
          omega
        have h2 : sizeOf rest ≤ k := by
          simp only [List.cons.sizeOf_spec] at hsz
          omega
        have hcc := cleanForest_cons _ _ hcl
        have hn := ih.1 n h1 hcc.1
        have hr := ih.2 rest h2 hcc.2.1
        constructor
        · show nso false (serializeNode n ++ serializeNodes rest) = true
          rw [nso_append, hn.1, hn.2, hr.1]
          rfl
        · show endLt false (serializeNode n ++ serializeNodes rest) = false
          rw [endLt_append, hn.2, hr.2]

theorem noScriptOpen_clean (ns : List HNode) (hc : cleanForest ns = true) :
    noScriptOpen (serializeNodes ns) = true := by
  rw [nso_spec]
  exact ((clean_safe (sizeOf ns)).2 ns (le_refl _) hc).1

end MindStream

namespace MindStream

theorem clean_html_shape (s : String) (h1 : clean_html (some s) ≠ "")
    (h2 : clean_html (some s) ≠ "None") :
    ∃ ns0 : List HNode,
      allowedForest ns0 = true ∧ prunedForest ns0 = true ∧
      hasContentNodes ns0 = true ∧
      clean_html (some s) =
        ⟨"<body>".data ++
          serializeNodes (squeezeForest (normForest ns0)) ++ "</body>".data⟩ := by
  by_cases hs : s = ""
  · exact absurd (by simp [clean_html, hs]) h1
  · have hcc : clean_html (some s) =
        cleanCore (parseHtml (stripScriptStyle s.data)) := by
      simp [clean_html, hs]
    by_cases hcon : hasContentNodes (processNodes (startNodes
        (parseHtml (stripScriptStyle s.data)))) = true
    · have hallps : allowedForest (processNodes (startNodes
          (parseHtml (stripScriptStyle s.data)))) = true :=
        (proc_allowed _).2 _ (le_refl _)
      refine ⟨pruneNodes (processNodes (startNodes
        (parseHtml (stripScriptStyle s.data)))), ?_, ?_, ?_, ?_⟩
      · exact (prune_allowed _).2 _ (le_refl _) hallps
      · exact (prune_pruned _).2 _ (le_refl _)
      · rw [(prune_content _).2 _ (le_refl _)]
        exact hcon
      · rw [hcc]
        simp only [cleanCore]
        rw [if_pos hcon]
        have hcln : cleanForest (normForest (pruneNodes (processNodes
            (startNodes (parseHtml (stripScriptStyle s.data)))))) = true :=
          norm_clean _ _ (le_refl _) ((prune_allowed _).2 _ (le_refl _) hallps)
        have hser : serializeNodes (pruneNodes (processNodes (startNodes
            (parseHtml (stripScriptStyle s.data))))) =
            serializeNodes (normForest (pruneNodes (processNodes (startNodes
              (parseHtml (stripScriptStyle s.data)))))) :=
          ((ser_norm _).2 _ (le_refl _)).symm
        show String.mk _ = String.mk _
        rw [collapse_body, hser, squeeze_serialize _ _ (le_refl _) hcln]
    · refine absurd ?_ h2
      rw [hcc]
      simp only [cleanCore]
      rw [if_neg hcon]

theorem clean_html_fixed (ms : List HNode)
    (hall : allowedForest ms = true) (hclean : cleanForest ms = true)
    (hpr : prunedForest ms = true) (hcon : hasContentNodes ms = true)
    (hsq : squeezeForest ms = ms) :
    clean_html (some ⟨"<body>".data ++ serializeNodes ms ++ "</body>".data⟩) =
      ⟨"<body>".data ++ serializeNodes ms ++ "</body>".data⟩ := by
  have hne : (⟨"<body>".data ++ serializeNodes ms ++ "</body>".data⟩ : String)
      ≠ "" := by
    intro hB
    have h0 := congrArg String.data hB
    rw [show ("" : String).data = [] from rfl] at h0
    simp at h0
  have hserB : "<body>".data ++ serializeNodes ms ++ "</body>".data =
      serializeNodes [HNode.tag "body".data ms] := by
    simp [serializeNodes, serializeNode, List.append_assoc]
  have hbody_clean : cleanForest [HNode.tag "body".data ms] = true := by
    simp only [cleanForest, cleanNode, Bool.and_eq_true]
    exact ⟨by decide, hclean⟩
  have hstrip : stripScriptStyle
      ("<body>".data ++ serializeNodes ms ++ "</body>".data) =
      "<body>".data ++ serializeNodes ms ++ "</body>".data := by
    rw [hserB]
    exact strip_id _ (noScriptOpen_clean _ hbody_clean)
  have hparse : parseHtml
      ("<body>".data ++ serializeNodes ms ++ "</body>".data) =
      [HNode.tag "body".data ms] := by
    rw [hserB]
    exact parse_clean_body ms hclean
  have step : clean_html
      (some (⟨"<body>".data ++ serializeNodes ms ++ "</body>".data⟩ : String)) =
      cleanCore (parseHtml (stripScriptStyle
        ("<body>".data ++ serializeNodes ms ++ "</body>".data))) := by
    simp only [clean_html]
    rw [if_neg hne]
  rw [step, hstrip, hparse]
  have hstart : startNodes [HNode.tag "body".data ms] = ms := by
    simp [startNodes, findBody, findBodyNode]
  simp only [cleanCore, hstart]
  rw [(proc_id (sizeOf ms)).2 ms (le_refl _) hall]
  rw [if_pos hcon]
  rw [(prune_id (sizeOf ms)).2 ms (le_refl _) hpr]
  show String.mk _ = String.mk _
  rw [collapse_body, squeeze_serialize (sizeOf ms) ms (le_refl _) hclean, hsq]

/-- C7 (amended): `clean_html` is idempotent on every input it keeps —
whenever the sanitized form of a string is neither `""` nor the literal
`"None"` (the two values the converter drops), sanitizing that output
again returns it unchanged. On allow-listed-only input with no visible
text the claim fails: see the whitespace counterexample. -/
theorem C7_clean_html_idempotent_on_kept (s : String)
    (h1 : clean_html (some s) ≠ "") (h2 : clean_html (some s) ≠ "None") :
    clean_html (some (clean_html (some s))) = clean_html (some s) := by
  obtain ⟨ns0, hall, hpr, hcon, hout⟩ := clean_html_shape s h1 h2
  have hcln : cleanForest (normForest ns0) = true :=
    norm_clean (sizeOf ns0) ns0 (le_refl _) hall
  have hall2 : allowedForest (squeezeForest (normForest ns0)) = true :=
    (sq_allowed _).2 _ (le_refl _) ((norm_allowed _).2 ns0 (le_refl _) hall)
  have hclean2 : cleanForest (squeezeForest (normForest ns0)) = true :=
    (sq_clean _).2 _ (le_refl _) hcln
  have hpr2 : prunedForest (squeezeForest (normForest ns0)) = true :=
    (sq_pruned _).2 _ (le_refl _) ((norm_pruned _).2 ns0 (le_refl _) hpr)
  have hcon2 : hasContentNodes (squeezeForest (normForest ns0)) = true := by
    rw [(sq_content _).2 _ (le_refl _), (norm_content _).2 ns0 (le_refl _)]
    exact hcon
  have hsq2 : squeezeForest (squeezeForest (normForest ns0)) =
      squeezeForest (normForest ns0) :=
    (sqf_idem _).2 _ (le_refl _)
  rw [hout]
  exact clean_html_fixed _ hall2 hclean2 hpr2 hcon2 hsq2

/-- C7 counterexample: the single space is HTML made of plain text alone
(no tags at all, so certainly only allow-listed ones), yet sanitizing it
twice does not agree with sanitizing it once: `clean_html " "` is
`"None"` (the pruned tree is empty and `str(None)` is serialized), and
`clean_html "None"` is `"<body>None</body>"`. -/
theorem C7_whitespace_not_idempotent_counterexample :
    clean_html (some (clean_html (some " "))) ≠ clean_html (some " ") := by
  decide

/-- C7 witness: `<p>hi</p>` is kept (its sanitized form is neither `""`
nor `"None"`), and on it the sanitizer is idempotent. -/
theorem C7_clean_html_idempotent_on_kept_witness :
    clean_html (some "<p>hi</p>") ≠ "" ∧
    clean_html (some "<p>hi</p>") ≠ "None" ∧
    clean_html (some (clean_html (some "<p>hi</p>"))) =
      clean_html (some "<p>hi</p>") :=
  ⟨by decide, by decide,
    C7_clean_html_idempotent_on_kept "<p>hi</p>" (by decide) (by decide)⟩

end MindStream
